import Mathlib

/-!
# ANNarchy: `DenseMatrixOffsets` (include/DenseMatrixOffsets.hpp) and the delay
history of `RatePopulation` (data/core/RatePopulation.h)

A shallow embedding of the mask-backed dense connectivity matrix with rank
offsets, and theorems about its constructor, `init_matrix_from_lil`,
`decode_column_indices` and `nb_efferent_synapses`; then the delay history of a rate
population, whose member functions are only declared in the header.

Conventions of the embedding.

* The class template `DenseMatrixOffsets<IT, ST, MT, row_major>` is described by a
  `Config`: the bit widths of the unsigned types `IT` and `ST`, `sizeof(MT)` and
  the layout flag.  `int` is 32 bits wide; `size_t`, `unsigned long` and `long long`
  are 64 bits wide.  When `IT` is at least as wide as `int` (`unsigned int`,
  `unsigned long`) C++ computes on `IT` values in `IT` itself, modulo `2 ^ itBits`.
  When `IT` is narrower (`unsigned char`, `unsigned short`) the operands are promoted
  to `int`: products and sums are exact, a result above `INT_MAX` is a signed overflow
  (undefined behaviour), and a value is reduced modulo `2 ^ itBits` only where it is
  stored in an `IT` (`row_idx`, `col_idx`, the shape, a map key or counter).
* `num_rows_`, `num_columns_`, `mask_` and `check_free_memory` belong to the base class
  `DenseMatrix`, whose source is not part of this development: the members are fields
  of the object, the shape is what the derived constructor passes on, and
  `check_free_memory` is a parameter of `init_matrix_from_lil`.
* `std::vector<MT> mask_` is a `List Bool` (an entry is read only through its truth
  value); `std::map<IT, IT>` is a list of key/value pairs kept in ascending key
  order, as `std::map` iterates.
* `assert` is active.  A failed assertion and an element access outside a vector
  (undefined behaviour in C++) are separate outcomes of a call.
-/

namespace ANNarchy

/-- Template arguments of one instantiation: widths of `IT` and `ST` in bits,
`sizeof(MT)` in bytes, and `row_major`. -/
structure Config where
  itBits : Nat
  stBits : Nat
  mtSize : Nat
  row_major : Bool
deriving DecidableEq, Repr

/-- Width of `size_t` / `unsigned long int` / `long long` in bits. -/
def wordBits : Nat := 64

/-- Width of `int` in bits. -/
def intBits : Nat := 32

/-- The value `std::numeric_limits<IT>::max()`. -/
def maxIT (c : Config) : Nat := 2 ^ c.itBits - 1

/-- The value `std::numeric_limits<ST>::max()`. -/
def maxST (c : Config) : Nat := 2 ^ c.stBits - 1

/-- Conversion of a value to `IT`. -/
def wrapIT (c : Config) (x : Nat) : Nat := x % 2 ^ c.itBits

/-- Conversion of a value to `ST` (the declaration `ST idx`). -/
def wrapST (c : Config) (x : Nat) : Nat := x % 2 ^ c.stBits

/-- Conversion of a value to `size_t`. -/
def wrapSize (x : Nat) : Nat := x % 2 ^ wordBits

/-- The difference `a - b` of two `IT` values stored in an `IT` (the shape handed to the
base constructor, `row_idx`, `col_idx`): modulo `2 ^ itBits`, whether the subtraction
itself is carried out in `IT` or, after promotion, in `int`. -/
def subIT (c : Config) (a b : Nat) : Nat :=
  (a % 2 ^ c.itBits + (2 ^ c.itBits - b % 2 ^ c.itBits)) % 2 ^ c.itBits

/-- The product `a * b` of two `IT` values as C++ evaluates it: in `IT`, modulo
`2 ^ itBits`, when `IT` is at least as wide as `int`; in `int` after promotion when `IT`
is narrower, where a result above `INT_MAX` is a signed overflow (`none`). -/
def mulIT (c : Config) (a b : Nat) : Option Nat :=
  if c.itBits < intBits then
    (if a * b < 2 ^ (intBits - 1) then some (a * b) else none)
  else some (wrapIT c (a * b))

/-- The expression `a * b + d` on `IT` values as C++ evaluates it: in `IT`, modulo
`2 ^ itBits`, when `IT` is at least as wide as `int`; in `int` after promotion when `IT`
is narrower, where a result above `INT_MAX` is a signed overflow (`none`). -/
def mulAddIT (c : Config) (a b d : Nat) : Option Nat :=
  if c.itBits < intBits then
    (if a * b + d < 2 ^ (intBits - 1) then some (a * b + d) else none)
  else some (wrapIT c (wrapIT c (a * b) + d))

/-- The conversion `static_cast<long long>(x)` of a non-negative value (two's
complement). -/
def toLongLong (x : Nat) : Int :=
  if x % 2 ^ wordBits < 2 ^ (wordBits - 1) then ((x % 2 ^ wordBits : Nat) : Int)
  else ((x % 2 ^ wordBits : Nat) : Int) - ((2 ^ wordBits : Nat) : Int)

/-- The data members of a `DenseMatrixOffsets` object: `num_rows_`, `num_columns_` and
`mask_` of the base class `DenseMatrix`, and the four rank bounds. -/
structure DenseMatrixOffsets where
  num_rows_ : Nat
  num_columns_ : Nat
  mask_ : List Bool
  low_row_rank_ : Nat
  high_row_rank_ : Nat
  low_column_rank_ : Nat
  high_column_rank_ : Nat
deriving DecidableEq, Repr

/-- How a call of `init_matrix_from_lil` ends: an assertion failed (the object is as
it was at the abort), the behaviour is undefined (a vector was accessed outside its
bounds, or an `int` computation overflowed), or the function returned a flag and left
the object in a new state. -/
inductive Outcome where
  | fatal (m : DenseMatrixOffsets)
  | undefined
  | returned (ok : Bool) (m : DenseMatrixOffsets)
deriving DecidableEq, Repr

/-- The condition asserted at the end of the constructor:
`static_cast<long long>(num_rows_ * num_columns_) < static_cast<long long>(numeric_limits<ST>::max())`,
the product being evaluated on `IT` operands before the cast; `none` is a signed overflow
in that product. -/
def ctorAssertion (c : Config) (num_rows num_columns : Nat) : Option Bool :=
  match mulIT c num_rows num_columns with
  | none => none
  | some p => some (decide (toLongLong p < toLongLong (maxST c)))

/-- How a call of the constructor ends: the assertion failed, the behaviour is undefined
(an `int` computation overflowed), or the object was built. -/
inductive Construction where
  | aborted
  | undefined
  | built (m : DenseMatrixOffsets)
deriving DecidableEq, Repr

/-- The constructor `DenseMatrixOffsets(low_row_rank, high_row_rank, low_column_rank,
high_column_rank)`.  The base constructor receives the two differences as the shape
(values of `IT`) and allocates no mask. -/
def construct (c : Config) (low_row_rank high_row_rank low_column_rank high_column_rank : Nat) :
    Construction :=
  let num_rows := subIT c high_row_rank low_row_rank
  let num_columns := subIT c high_column_rank low_column_rank
  match ctorAssertion c num_rows num_columns with
  | none => Construction.undefined
  | some false => Construction.aborted
  | some true =>
    Construction.built
      { num_rows_ := num_rows, num_columns_ := num_columns, mask_ := [],
        low_row_rank_ := low_row_rank, high_row_rank_ := high_row_rank,
        low_column_rank_ := low_column_rank, high_column_rank_ := high_column_rank }

/-- The flat index of cell `(row, col)` as the code computes it on `IT` operands:
`row * num_columns_ + col` when `row_major`, `col * num_rows_ + row` otherwise; `none` is
a signed overflow. -/
def flatIndex (c : Config) (m : DenseMatrixOffsets) (row col : Nat) : Option Nat :=
  if c.row_major then mulAddIT c row m.num_columns_ col
  else mulAddIT c col m.num_rows_ row

/-- The read `ST idx = <flat index>; mask_[idx]` shared by `decode_column_indices` and
`nb_efferent_synapses`: the flat index is stored in an `ST` and the entry is read; `none`
is a signed overflow in the index or a read outside `mask_`. -/
def maskRead (c : Config) (m : DenseMatrixOffsets) (row col : Nat) : Option Bool :=
  match flatIndex c m row col with
  | none => none
  | some idx => m.mask_[wrapST c idx]?

/-- One iteration of the loop of `decode_column_indices`: store the flat index in an
`ST`, read `mask_[idx]` and push the column when the entry is set.  `none` is undefined
behaviour in the read. -/
def decodeStep (c : Config) (m : DenseMatrixOffsets) (row_idx : Nat) (indices : List Nat)
    (col : Nat) : Option (List Nat) :=
  match maskRead c m row_idx col with
  | none => none
  | some b => some (if b then indices ++ [col] else indices)

/-- The method `decode_column_indices(row_idx)`: the scan `c = 0 .. num_columns_ - 1`
(the same loop body in both layouts, up to the flat index). -/
def decode_column_indices (c : Config) (m : DenseMatrixOffsets) (row_idx : Nat) :
    Option (List Nat) :=
  (List.range m.num_columns_).foldlM (decodeStep c m row_idx) []

/-- The statement `num_efferents[key]++` on a `std::map<IT, IT>`: a missing key is
inserted with value `0` first, then the value is incremented in `IT`. -/
def mapIncr (c : Config) : List (Nat × Nat) → Nat → List (Nat × Nat)
  | [], key => [(key, wrapIT c 1)]
  | (k, v) :: rest, key =>
    if key < k then (key, wrapIT c 1) :: (k, v) :: rest
    else if key = k then (k, wrapIT c (v + 1)) :: rest
    else (k, v) :: mapIncr c rest key

/-- Lookup of a key in a `std::map<IT, IT>`. -/
def mapFind : List (Nat × Nat) → Nat → Option Nat
  | [], _ => none
  | (k, v) :: rest, key => if key = k then some v else mapFind rest key

/-- One visit of a cell by `nb_efferent_synapses`: read `mask_[idx]` and, when set,
increment the entry of the global rank `j + low_column_rank_`. -/
def countCell (c : Config) (m : DenseMatrixOffsets) (i j : Nat)
    (num_efferents : List (Nat × Nat)) : Option (List (Nat × Nat)) :=
  match maskRead c m i j with
  | none => none
  | some b =>
    some (if b then mapIncr c num_efferents (wrapIT c (j + m.low_column_rank_))
          else num_efferents)

/-- The method `nb_efferent_synapses()`: rows outside and columns inside when
`row_major`, columns outside and rows inside otherwise.  `none` is undefined behaviour
in a read. -/
def nb_efferent_synapses (c : Config) (m : DenseMatrixOffsets) : Option (List (Nat × Nat)) :=
  if c.row_major then
    (List.range m.num_rows_).foldlM
      (fun acc i => (List.range m.num_columns_).foldlM (fun acc2 j => countCell c m i j acc2) acc)
      []
  else
    (List.range m.num_columns_).foldlM
      (fun acc j => (List.range m.num_rows_).foldlM (fun acc2 i => countCell c m i j acc2) acc)
      []

/-- The assignment `mask_[idx] = true` of the ingestion loop, for the pre rank
`pre` of the row `row_idx`; `none` is a signed overflow in the index or a write outside
`mask_`. -/
def setCell (c : Config) (m : DenseMatrixOffsets) (row_idx : Nat) (mask : List Bool)
    (pre : Nat) : Option (List Bool) :=
  let col_idx := subIT c pre m.low_column_rank_
  match flatIndex c m row_idx col_idx with
  | none => none
  | some idx => if idx < mask.length then some (mask.set idx true) else none

/-- The body of the outer ingestion loop for one entry `post` of `post_ranks`:
`row_idx = post - low_row_rank_`, then every element of `pre_ranks[row_idx]` is
ingested; `none` is an access outside `pre_ranks` or undefined behaviour in a write. -/
def ingestRow (c : Config) (m : DenseMatrixOffsets) (pre_ranks : List (List Nat))
    (mask : List Bool) (post : Nat) : Option (List Bool) :=
  let row_idx := subIT c post m.low_row_rank_
  match pre_ranks[row_idx]? with
  | none => none
  | some cols => cols.foldlM (setCell c m row_idx) mask

/-- The argument of `check_free_memory` in `init_matrix_from_lil`:
`num_columns_ * num_rows_ * sizeof(MT)`, the product of the two shapes being evaluated on
`IT` operands and the byte count in `size_t`; `none` is a signed overflow in the
product. -/
def memoryRequest (c : Config) (m : DenseMatrixOffsets) : Option Nat :=
  match mulIT c m.num_columns_ m.num_rows_ with
  | none => none
  | some p => some (wrapSize (p * c.mtSize))

/-- The method `init_matrix_from_lil(post_ranks, pre_ranks)`.  The two assertions come
first (both casts to `unsigned long int` in the second one keep the value).  The
inherited `check_free_memory` is a parameter.  The mask is allocated with
`num_rows_ * num_columns_` entries, the product being evaluated on `IT` operands. -/
def init_matrix_from_lil (c : Config) (check_free_memory : Nat → Bool)
    (m : DenseMatrixOffsets) (post_ranks : List Nat) (pre_ranks : List (List Nat)) : Outcome :=
  if post_ranks.length ≠ pre_ranks.length then Outcome.fatal m
  else if ¬ (post_ranks.length ≤ maxIT c) then Outcome.fatal m
  else
    match memoryRequest c m with
    | none => Outcome.undefined
    | some bytes =>
      if !check_free_memory bytes then Outcome.returned false m
      else
        match mulIT c m.num_rows_ m.num_columns_ with
        | none => Outcome.undefined
        | some size =>
          match post_ranks.foldlM (ingestRow c m pre_ranks) (List.replicate size false) with
          | none => Outcome.undefined
          | some mask2 => Outcome.returned true { m with mask_ := mask2 }

/-! ### Specification-side vocabulary -/

/-- The address function of the specification, in exact arithmetic:
`row * num_columns + col` for the row-major layout, `col * num_rows + row` for the
column-major one. -/
def addr (c : Config) (m : DenseMatrixOffsets) (row col : Nat) : Nat :=
  if c.row_major then row * m.num_columns_ + col else col * m.num_rows_ + row

/-- The cell `(row, col)` of the mask is set. -/
def cellSet (c : Config) (m : DenseMatrixOffsets) (row col : Nat) : Bool :=
  m.mask_[addr c m row col]? == some true

/-- Number of rows `i < num_rows` whose cell in the local column `j` is set. -/
def columnDegree (c : Config) (m : DenseMatrixOffsets) (j : Nat) : Nat :=
  (List.range m.num_rows_).countP (fun i => cellSet c m i j)

/-- Sum of the values stored in a map. -/
def mapSum (r : List (Nat × Nat)) : Nat := (r.map Prod.snd).sum

/-- The invariant of the data model that `num_rows * num_columns` (the exact product)
fits the types the flat index passes through: it is computed in `IT` and stored in
`ST`. -/
def FitsIndexTypes (c : Config) (m : DenseMatrixOffsets) : Prop :=
  m.num_rows_ * m.num_columns_ ≤ maxIT c ∧ m.num_rows_ * m.num_columns_ ≤ maxST c

instance (c : Config) (m : DenseMatrixOffsets) : Decidable (FitsIndexTypes c m) := by
  unfold FitsIndexTypes; infer_instance

/-- The invariant `high_row_rank - low_row_rank == num_rows` of the data model, the
upper rank being a value of `IT`. -/
def RowWindowInv (c : Config) (m : DenseMatrixOffsets) : Prop :=
  m.low_row_rank_ + m.num_rows_ = m.high_row_rank_ ∧ m.high_row_rank_ ≤ maxIT c

instance (c : Config) (m : DenseMatrixOffsets) : Decidable (RowWindowInv c m) := by
  unfold RowWindowInv; infer_instance

/-- The invariant `high_column_rank - low_column_rank == num_columns` of the data model,
the upper rank being a value of `IT`. -/
def ColumnWindowInv (c : Config) (m : DenseMatrixOffsets) : Prop :=
  m.low_column_rank_ + m.num_columns_ = m.high_column_rank_ ∧ m.high_column_rank_ ≤ maxIT c

instance (c : Config) (m : DenseMatrixOffsets) : Decidable (ColumnWindowInv c m) := by
  unfold ColumnWindowInv; infer_instance

/-- The invariant `mask.length == num_rows * num_columns` of the data model. -/
def MaskInv (m : DenseMatrixOffsets) : Prop :=
  m.mask_.length = m.num_rows_ * m.num_columns_

instance (m : DenseMatrixOffsets) : Decidable (MaskInv m) := by
  unfold MaskInv; infer_instance

/-! ### Concrete instantiations and objects used in the examples -/

/-- The instantiation `IT = unsigned int`, `ST = unsigned int`, `MT = char`, row-major. -/
def uint32RowMajor : Config := { itBits := 32, stBits := 32, mtSize := 1, row_major := true }

/-- The instantiation `IT = unsigned int`, `ST = unsigned int`, `MT = char`, column-major. -/
def uint32ColMajor : Config := { itBits := 32, stBits := 32, mtSize := 1, row_major := false }

/-- The object built for the windows `[0, n)` of rows and `[0, k)` of columns. -/
def freshMatrix (n k : Nat) : DenseMatrixOffsets :=
  { num_rows_ := n, num_columns_ := k, mask_ := [],
    low_row_rank_ := 0, high_row_rank_ := n, low_column_rank_ := 0, high_column_rank_ := k }

/-- A free-memory check that always passes. -/
def enoughMemory : Nat → Bool := fun _ => true

/-- A free-memory check that always reports insufficient memory. -/
def noMemory : Nat → Bool := fun _ => false

/-- A 2 x 3 object (windows `[10, 12)` and `[20, 23)`) whose cells `(0, 1)`,
`(1, 0)` and `(1, 2)` are set, in the row-major layout. -/
def sampleMatrix : DenseMatrixOffsets :=
  { num_rows_ := 2, num_columns_ := 3, mask_ := [false, true, false, true, false, true],
    low_row_rank_ := 10, high_row_rank_ := 12, low_column_rank_ := 20, high_column_rank_ := 23 }

/-- The keys of a map are strictly ascending. -/
def KeysSorted (r : List (Nat × Nat)) : Prop := r.Pairwise (fun a b => a.1 < b.1)

/-- The entry of a key that has been incremented `n` times, starting from absent. -/
def entryAfter (c : Config) (n : Nat) : Option Nat := if n = 0 then none else some (wrapIT c n)

/-- The map `r` is what `f g` increments of every key `g`, `t` increments in all, leave
behind (the total is only meaningful while no counter has wrapped). -/
def Tally (c : Config) (r : List (Nat × Nat)) (f : Nat → Nat) (t : Nat) : Prop :=
  KeysSorted r ∧ (∀ g, mapFind r g = entryAfter c (f g)) ∧
    ((∀ g, f g < 2 ^ c.itBits) → mapSum r = t)

/-- Contribution of cell `(i, j)` to the counter of the global rank `g`: `1` when the
cell is set and `g = j + low_column_rank_`, else `0`. -/
def hit (c : Config) (m : DenseMatrixOffsets) (i j g : Nat) : Nat :=
  if cellSet c m i j = true ∧ g = j + m.low_column_rank_ then 1 else 0

/-- Indicator of a set cell: `1` when cell `(i, j)` is set, else `0`. -/
def setCount (c : Config) (m : DenseMatrixOffsets) (i j : Nat) : Nat :=
  if cellSet c m i j = true then 1 else 0

/-- The count `nb_efferent_synapses` is to report for the global rank `g`: the degree of
the local column `g - low_column_rank_` when `g` lies in the column window, else `0`. -/
def degreeAt (c : Config) (m : DenseMatrixOffsets) (g : Nat) : Nat :=
  if m.low_column_rank_ ≤ g ∧ g - m.low_column_rank_ < m.num_columns_ then
    columnDegree c m (g - m.low_column_rank_)
  else 0

/-- The `(post_rank, pre_rank)` pairs an adjacency input declares: `post_ranks[i]` paired
with every element of `pre_ranks[i]`. -/
def lilPairs : List Nat → List (List Nat) → List (Nat × Nat)
  | p :: ps, qs :: qss => qs.map (fun q => (p, q)) ++ lilPairs ps qss
  | _, _ => []

/-- The flat address `a` is written while the entries `ps` of `post_ranks` are ingested:
some `p` in `ps` and some `q` in `pre_ranks[p - low_row_rank_]` have
`a = addr(p - low_row_rank_, q - low_column_rank_)`. -/
def Written (c : Config) (m : DenseMatrixOffsets) (pre_ranks : List (List Nat))
    (ps : List Nat) (a : Nat) : Prop :=
  ∃ p ∈ ps, ∃ qs, pre_ranks[p - m.low_row_rank_]? = some qs ∧
    ∃ q ∈ qs, a = addr c m (p - m.low_row_rank_) (q - m.low_column_rank_)

/-- The default instantiation of the template: `IT = unsigned int`, `ST = unsigned long
int`, `MT = char`, row-major. -/
def defaultConfig : Config := { itBits := 32, stBits := 64, mtSize := 1, row_major := true }

/-! ### Population core (data/core/RatePopulation.h) -/

/-- Modelled from the spec: the part of a `RatePopulation` object that the delay protocol
uses, the rate vector `r_` and the history `delayedRates_` of past rate vectors
(`delay_history`, most recent first).  RatePopulation.h only declares the class; the
bodies of `setMaxDelay`, `getRs` and `metaStep` are in a source file that is missing here.
`α` is the type of one rate (`DATA_TYPE`). -/
structure RatePopulation (α : Type) where
  r_ : List α
  delayedRates_ : List (List α)
deriving DecidableEq, Repr

/-- Modelled from the spec: `setMaxDelay(delay)`, whose body is missing; it "grows
`delay_history` to depth `d` if currently shallower" and keeps the entries it has.  The
added, oldest slots hold `fill`. -/
def RatePopulation.setMaxDelay {α : Type} (p : RatePopulation α) (delay : Nat)
    (fill : List α) : RatePopulation α :=
  { p with
    delayedRates_ :=
      p.delayedRates_ ++ List.replicate (delay - p.delayedRates_.length) fill }

/-- Modelled from the spec: the end of `metaStep`, whose body is missing; once per tick,
after the state update, "the new `rate` is pushed onto `delay_history`, evicting the oldest
slot".  The new rate vector is what the neuron equations produced. -/
def RatePopulation.metaStep {α : Type} (p : RatePopulation α) (rates : List α) :
    RatePopulation α :=
  { r_ := rates,
    delayedRates_ := (rates :: p.delayedRates_).take p.delayedRates_.length }

/-- Modelled from the spec: `getRs(delay)`, whose body is missing; the history has "one
slot per supported delay value", slot `1` being the most recent push ("delay = 1" means
"one tick old"), and a delay beyond the depth is fatal (`none`); delay `0` has no slot,
zero-delay connections read the live rate. -/
def RatePopulation.getRs {α : Type} (p : RatePopulation α) (delay : Nat) : Option (List α) :=
  if delay = 0 then none else p.delayedRates_[delay - 1]?

/-- Modelled from the spec: `getRs(delays, ranks)`, whose body is missing; the batched
gather that "for each `(delay_i, rank_i)` pair returns `delay_history[delay_i][rank_i]`"
and is fatal (`none`) when a delay exceeds the depth (or a rank the population). -/
def RatePopulation.getRsRanks {α : Type} (p : RatePopulation α) :
    List Nat → List Nat → Option (List α)
  | d :: delays, k :: ranks =>
    match p.getRs d with
    | none => none
    | some rates =>
      match rates[k]? with
      | none => none
      | some x => (RatePopulation.getRsRanks p delays ranks).map (fun xs => x :: xs)
  | _, _ => some []

/-- Modelled from the spec: a sequence of ticks seen from one population, each tick ending
with the push of the rate vector it computed. -/
def RatePopulation.runTicks {α : Type} (p : RatePopulation α) (ticks : List (List α)) :
    RatePopulation α :=
  ticks.foldl RatePopulation.metaStep p

/-- A population without history and without neurons. -/
def emptyPopulation : RatePopulation Nat := { r_ := [], delayedRates_ := [] }

/-- Contribution of one visit of cell `(i, j)` by `nb_efferent_synapses` to the counter of
the key `g`, read off the code: `1` when the entry the code reads at its own flat index
is set and `g` is the key `j + low_column_rank_` stored in an `IT`, else `0`. -/
def visitHit (c : Config) (m : DenseMatrixOffsets) (i j g : Nat) : Nat :=
  if maskRead c m i j = some true ∧ g = wrapIT c (j + m.low_column_rank_) then 1 else 0

/-- The object for the windows `[0, 2147483649)` x `[0, 3)` after the ingestion of the single
pair `(0, 0)`: the mask has the `2147483651` entries that `init_matrix_from_lil` allocates
when `IT` is 32 bits wide (`2147483649 * 3` computed in `IT`), entry `0` being set. -/
def probeMatrix : DenseMatrixOffsets :=
  { freshMatrix 2147483649 3 with mask_ := (List.replicate 2147483651 false).set 0 true }

/-- The instantiation `c` with the layout flag set to `b`. -/
def withLayout (c : Config) (b : Bool) : Config := { c with row_major := b }

/-- The adjacency input, as the ingestion loop reads it, declares the cell `(i, j)`: some
`p` in `post_ranks` and some `q` in `pre_ranks[p - low_row_rank_]` have
`i = p - low_row_rank_` and `j = q - low_column_rank_`. -/
def Declared (m : DenseMatrixOffsets) (pre_ranks : List (List Nat)) (post_ranks : List Nat)
    (i j : Nat) : Prop :=
  ∃ p ∈ post_ranks, ∃ qs, pre_ranks[p - m.low_row_rank_]? = some qs ∧
    ∃ q ∈ qs, i = p - m.low_row_rank_ ∧ j = q - m.low_column_rank_

theorem lt_two_pow_of_le_maxIT (c : Config) {x : Nat} (h : x ≤ maxIT c) : x < 2 ^ c.itBits := by
  have hp := Nat.two_pow_pos c.itBits
  unfold maxIT at h
  omega

theorem lt_two_pow_of_le_maxST (c : Config) {x : Nat} (h : x ≤ maxST c) : x < 2 ^ c.stBits := by
  have hp := Nat.two_pow_pos c.stBits
  unfold maxST at h
  omega

theorem wrapIT_of_lt (c : Config) {x : Nat} (h : x < 2 ^ c.itBits) : wrapIT c x = x :=
  Nat.mod_eq_of_lt h

theorem two_pow_le_int_of_narrow (c : Config) (h : c.itBits < intBits) :
    2 ^ c.itBits ≤ 2 ^ (intBits - 1) :=
  Nat.pow_le_pow_right (by norm_num) (by omega)

theorem mulIT_of_lt (c : Config) {a b : Nat} (h : a * b < 2 ^ c.itBits) :
    mulIT c a b = some (a * b) := by
  unfold mulIT
  split
  · rename_i hn
    have := two_pow_le_int_of_narrow c hn
    rw [if_pos (by omega)]
  · rw [wrapIT_of_lt c h]

theorem mulAddIT_of_lt (c : Config) {a b d : Nat} (h : a * b + d < 2 ^ c.itBits) :
    mulAddIT c a b d = some (a * b + d) := by
  have h1 : a * b < 2 ^ c.itBits := by omega
  unfold mulAddIT
  split
  · rename_i hn
    have := two_pow_le_int_of_narrow c hn
    rw [if_pos (by omega)]
  · rw [wrapIT_of_lt c h1, wrapIT_of_lt c h]

theorem subIT_of_le (c : Config) {a b : Nat} (hba : b ≤ a) (ha : a < 2 ^ c.itBits) :
    subIT c a b = a - b := by
  have hb : b < 2 ^ c.itBits := by omega
  unfold subIT
  rw [Nat.mod_eq_of_lt ha, Nat.mod_eq_of_lt hb]
  have h2 : a + (2 ^ c.itBits - b) = (a - b) + 2 ^ c.itBits := by omega
  rw [h2, Nat.add_mod_right]
  exact Nat.mod_eq_of_lt (by omega)

theorem addr_lt (c : Config) (m : DenseMatrixOffsets) {row col : Nat}
    (hrow : row < m.num_rows_) (hcol : col < m.num_columns_) :
    addr c m row col < m.num_rows_ * m.num_columns_ := by
  unfold addr
  split
  · have h1 : (row + 1) * m.num_columns_ ≤ m.num_rows_ * m.num_columns_ :=
      Nat.mul_le_mul_right _ hrow
    have h2 : (row + 1) * m.num_columns_ = row * m.num_columns_ + m.num_columns_ := by ring
    omega
  · have h1 : (col + 1) * m.num_rows_ ≤ m.num_columns_ * m.num_rows_ :=
      Nat.mul_le_mul_right _ hcol
    have h2 : (col + 1) * m.num_rows_ = col * m.num_rows_ + m.num_rows_ := by ring
    have h3 : m.num_columns_ * m.num_rows_ = m.num_rows_ * m.num_columns_ := Nat.mul_comm _ _
    omega

theorem flatIndex_eq_addr (c : Config) (m : DenseMatrixOffsets) {row col : Nat}
    (hfit : m.num_rows_ * m.num_columns_ ≤ maxIT c)
    (hrow : row < m.num_rows_) (hcol : col < m.num_columns_) :
    flatIndex c m row col = some (addr c m row col) := by
  have h1 := addr_lt c m hrow hcol
  have h2 := lt_two_pow_of_le_maxIT c hfit
  unfold flatIndex
  unfold addr at h1 ⊢
  cases hr : c.row_major
  · simp only [hr, Bool.false_eq_true, if_false] at h1 ⊢
    exact mulAddIT_of_lt c (by omega)
  · simp only [hr, if_true] at h1 ⊢
    exact mulAddIT_of_lt c (by omega)

theorem stIndex_eq_addr (c : Config) (m : DenseMatrixOffsets) {row col : Nat}
    (hshape : FitsIndexTypes c m) (hrow : row < m.num_rows_) (hcol : col < m.num_columns_) :
    wrapST c (addr c m row col) = addr c m row col := by
  obtain ⟨hit, hst⟩ := hshape
  have h1 := addr_lt c m hrow hcol
  have h2 := lt_two_pow_of_le_maxST c hst
  exact Nat.mod_eq_of_lt (by omega)

theorem maskRead_of_flatIndex (c : Config) (m : DenseMatrixOffsets) {row col idx : Nat}
    (h : flatIndex c m row col = some idx) :
    maskRead c m row col = m.mask_[wrapST c idx]? := by
  unfold maskRead
  rw [h]

theorem mask_read (c : Config) (m : DenseMatrixOffsets) {row col : Nat}
    (hshape : FitsIndexTypes c m) (hmask : MaskInv m)
    (hrow : row < m.num_rows_) (hcol : col < m.num_columns_) :
    maskRead c m row col = some (cellSet c m row col) := by
  rw [maskRead_of_flatIndex c m (flatIndex_eq_addr c m hshape.1 hrow hcol),
    stIndex_eq_addr c m hshape hrow hcol]
  have h1 := addr_lt c m hrow hcol
  have h2 : addr c m row col < m.mask_.length := by rw [hmask]; exact h1
  unfold cellSet
  rw [List.getElem?_eq_getElem h2]
  cases m.mask_[addr c m row col] <;> rfl

/-! ### `decode_column_indices` -/

theorem decodeStep_eq (c : Config) (m : DenseMatrixOffsets) {row col : Nat}
    (hshape : FitsIndexTypes c m) (hmask : MaskInv m)
    (hrow : row < m.num_rows_) (hcol : col < m.num_columns_) (indices : List Nat) :
    decodeStep c m row indices col =
      some (if cellSet c m row col then indices ++ [col] else indices) := by
  unfold decodeStep
  rw [mask_read c m hshape hmask hrow hcol]

theorem decode_fold (c : Config) (m : DenseMatrixOffsets) {row : Nat}
    (hshape : FitsIndexTypes c m) (hmask : MaskInv m) (hrow : row < m.num_rows_) :
    ∀ (cols indices : List Nat), (∀ col ∈ cols, col < m.num_columns_) →
      cols.foldlM (decodeStep c m row) indices =
        some (indices ++ cols.filter (fun col => cellSet c m row col)) := by
  intro cols
  induction cols with
  | nil => intro indices _; simp
  | cons col rest ih =>
    intro indices hcols
    have hcol : col < m.num_columns_ := hcols col (List.mem_cons_self _ _)
    have hrest : ∀ x ∈ rest, x < m.num_columns_ := fun x hx => hcols x (List.mem_cons_of_mem _ hx)
    rw [List.foldlM_cons, decodeStep_eq c m hshape hmask hrow hcol]
    simp only [Option.bind_eq_bind, Option.some_bind]
    rw [ih _ hrest]
    by_cases hset : cellSet c m row col = true
    · simp [hset, List.filter_cons]
    · simp [hset, List.filter_cons]

theorem decode_eq_filter (c : Config) (m : DenseMatrixOffsets) {row : Nat}
    (hshape : FitsIndexTypes c m) (hmask : MaskInv m) (hrow : row < m.num_rows_) :
    decode_column_indices c m row =
      some ((List.range m.num_columns_).filter (fun col => cellSet c m row col)) := by
  unfold decode_column_indices
  rw [decode_fold c m hshape hmask hrow _ [] (fun col hcol => List.mem_range.mp hcol)]
  simp

/-! ### The assertions and the memory check of `init_matrix_from_lil` -/

theorem init_fatal_of_length_ne (c : Config) (chk : Nat → Bool) (m : DenseMatrixOffsets)
    (post_ranks : List Nat) (pre_ranks : List (List Nat))
    (h : post_ranks.length ≠ pre_ranks.length) :
    init_matrix_from_lil c chk m post_ranks pre_ranks = Outcome.fatal m := by
  simp [init_matrix_from_lil, h]

theorem init_false_of_no_memory (c : Config) (chk : Nat → Bool) (m : DenseMatrixOffsets)
    (post_ranks : List Nat) (pre_ranks : List (List Nat)) (bytes : Nat)
    (hlen : post_ranks.length = pre_ranks.length) (hfit : post_ranks.length ≤ maxIT c)
    (hreq : memoryRequest c m = some bytes) (hmem : chk bytes = false) :
    init_matrix_from_lil c chk m post_ranks pre_ranks = Outcome.returned false m := by
  have hfit2 : pre_ranks.length ≤ maxIT c := hlen ▸ hfit
  unfold init_matrix_from_lil
  simp only [hlen, ne_eq, not_true_eq_false, if_false, hfit2, hreq, hmem, Bool.not_false,
    if_true]

theorem init_of_ingest (c : Config) (chk : Nat → Bool) (m : DenseMatrixOffsets)
    (post_ranks : List Nat) (pre_ranks : List (List Nat)) (bytes size : Nat)
    (mask2 : List Bool)
    (hlen : post_ranks.length = pre_ranks.length) (hfit : post_ranks.length ≤ maxIT c)
    (hreq : memoryRequest c m = some bytes) (hmem : chk bytes = true)
    (hsize : mulIT c m.num_rows_ m.num_columns_ = some size)
    (hfold : post_ranks.foldlM (ingestRow c m pre_ranks) (List.replicate size false) =
      some mask2) :
    init_matrix_from_lil c chk m post_ranks pre_ranks =
      Outcome.returned true { m with mask_ := mask2 } := by
  have hfit2 : pre_ranks.length ≤ maxIT c := hlen ▸ hfit
  unfold init_matrix_from_lil
  simp only [hlen, ne_eq, not_true_eq_false, if_false, hfit2, hreq, hmem, Bool.not_true,
    Bool.false_eq_true, hsize, hfold]

theorem init_not_fatal_of_checks (c : Config) (chk : Nat → Bool) (m : DenseMatrixOffsets)
    (post_ranks : List Nat) (pre_ranks : List (List Nat))
    (hlen : post_ranks.length = pre_ranks.length) (hfit : post_ranks.length ≤ maxIT c)
    (m2 : DenseMatrixOffsets) :
    init_matrix_from_lil c chk m post_ranks pre_ranks ≠ Outcome.fatal m2 := by
  have hfit2 : pre_ranks.length ≤ maxIT c := hlen ▸ hfit
  unfold init_matrix_from_lil
  simp only [hlen, ne_eq, not_true_eq_false, if_false, hfit2]
  cases memoryRequest c m with
  | none => simp
  | some bytes =>
    cases hmem : chk bytes with
    | false => simp [hmem]
    | true =>
      cases mulIT c m.num_rows_ m.num_columns_ with
      | none => simp [hmem]
      | some size =>
        cases hfold : post_ranks.foldlM (ingestRow c m pre_ranks)
            (List.replicate size false) with
        | none => simp [hmem, hfold]
        | some mask2 => simp [hmem, hfold]

theorem init_true_inv (c : Config) (chk : Nat → Bool) (m m2 : DenseMatrixOffsets)
    (post_ranks : List Nat) (pre_ranks : List (List Nat))
    (h : init_matrix_from_lil c chk m post_ranks pre_ranks = Outcome.returned true m2) :
    post_ranks.length = pre_ranks.length ∧ post_ranks.length ≤ maxIT c ∧
      ∃ bytes size mask2, memoryRequest c m = some bytes ∧ chk bytes = true ∧
        mulIT c m.num_rows_ m.num_columns_ = some size ∧
        post_ranks.foldlM (ingestRow c m pre_ranks) (List.replicate size false) =
          some mask2 ∧
        m2 = { m with mask_ := mask2 } := by
  unfold init_matrix_from_lil at h
  by_cases h1 : post_ranks.length = pre_ranks.length
  · by_cases h2 : post_ranks.length ≤ maxIT c
    · have h2b : pre_ranks.length ≤ maxIT c := h1 ▸ h2
      simp only [h1, ne_eq, not_true_eq_false, if_false, h2b] at h
      refine ⟨h1, h2, ?_⟩
      cases hreq : memoryRequest c m with
      | none => simp [hreq] at h
      | some bytes =>
        cases hmem : chk bytes with
        | false => simp [hreq, hmem] at h
        | true =>
          cases hsize : mulIT c m.num_rows_ m.num_columns_ with
          | none => simp [hreq, hmem, hsize] at h
          | some size =>
            cases hfold : post_ranks.foldlM (ingestRow c m pre_ranks)
                (List.replicate size false) with
            | none => simp [hreq, hmem, hsize, hfold] at h
            | some mask2 =>
              simp only [hreq, hmem, hsize, hfold, Bool.not_true, Bool.false_eq_true,
                if_false] at h
              refine ⟨bytes, size, mask2, rfl, hmem, rfl, hfold, ?_⟩
              have e : ({ m with mask_ := mask2 } : DenseMatrixOffsets) = m2 := by
                injection h
              exact e.symm
    · have h2b : ¬ pre_ranks.length ≤ maxIT c := h1 ▸ h2
      simp [h1, h2b] at h
  · simp [h1] at h

/-! ### The map of counters -/

theorem mapFind_none_of_ne (r : List (Nat × Nat)) (key : Nat) (h : ∀ a ∈ r, a.1 ≠ key) :
    mapFind r key = none := by
  induction r with
  | nil => rfl
  | cons a rest ih =>
    obtain ⟨k, v⟩ := a
    have hk : key ≠ k := fun e => h (k, v) (List.mem_cons_self _ _) e.symm
    simp only [mapFind, hk, if_false]
    exact ih (fun b hb => h b (List.mem_cons_of_mem _ hb))

theorem mapIncr_keys (c : Config) (r : List (Nat × Nat)) (key : Nat) :
    ∀ a ∈ mapIncr c r key, a.1 = key ∨ ∃ b ∈ r, b.1 = a.1 := by
  induction r with
  | nil =>
    intro a ha
    simp only [mapIncr, List.mem_singleton] at ha
    left; rw [ha]
  | cons b rest ih =>
    obtain ⟨k, v⟩ := b
    intro a ha
    unfold mapIncr at ha
    split at ha
    · rcases List.mem_cons.mp ha with h | h
      · left; rw [h]
      · right; exact ⟨a, h, rfl⟩
    · split at ha
      · rcases List.mem_cons.mp ha with h | h
        · right; exact ⟨(k, v), List.mem_cons_self _ _, by rw [h]⟩
        · right; exact ⟨a, List.mem_cons_of_mem _ h, rfl⟩
      · rcases List.mem_cons.mp ha with h | h
        · right; exact ⟨(k, v), List.mem_cons_self _ _, by rw [h]⟩
        · rcases ih a h with h2 | ⟨b2, hb2, e⟩
          · left; exact h2
          · right; exact ⟨b2, List.mem_cons_of_mem _ hb2, e⟩

theorem mapIncr_sorted (c : Config) (r : List (Nat × Nat)) (key : Nat) (h : KeysSorted r) :
    KeysSorted (mapIncr c r key) := by
  induction r with
  | nil => simp [mapIncr, KeysSorted]
  | cons b rest ih =>
    obtain ⟨k, v⟩ := b
    unfold KeysSorted at h ih ⊢
    obtain ⟨hhead, htail⟩ := List.pairwise_cons.mp h
    unfold mapIncr
    split
    · rename_i hlt
      refine List.pairwise_cons.mpr ⟨?_, h⟩
      intro a ha
      rcases List.mem_cons.mp ha with e | e
      · rw [e]; exact hlt
      · exact Nat.lt_trans hlt (hhead a e)
    · split
      · exact List.pairwise_cons.mpr ⟨hhead, htail⟩
      · rename_i hnlt hne
        refine List.pairwise_cons.mpr ⟨?_, ih htail⟩
        intro a ha
        rcases mapIncr_keys c rest key a ha with e | ⟨b2, hb2, e⟩
        · rw [e]; show k < key; omega
        · rw [← e]; exact hhead b2 hb2

theorem mapFind_mapIncr (c : Config) (r : List (Nat × Nat)) (key g : Nat) (h : KeysSorted r) :
    mapFind (mapIncr c r key) g =
      if g = key then some (wrapIT c ((mapFind r key).getD 0 + 1)) else mapFind r g := by
  induction r with
  | nil => simp [mapIncr, mapFind]
  | cons b rest ih =>
    obtain ⟨k, v⟩ := b
    unfold KeysSorted at h ih
    obtain ⟨hhead, htail⟩ := List.pairwise_cons.mp h
    unfold mapIncr
    split
    · rename_i hlt
      have hnone : mapFind ((k, v) :: rest) key = none := by
        apply mapFind_none_of_ne
        intro a ha
        rcases List.mem_cons.mp ha with e | e
        · rw [e]; show k ≠ key; omega
        · have := hhead a e; omega
      rw [hnone]
      simp [mapFind]
    · split
      · rename_i hnlt heq
        subst heq
        by_cases hg : g = key <;> simp [mapFind, hg]
      · rename_i hnlt hne
        simp only [mapFind, hne, if_false]
        rw [ih htail]
        by_cases hg : g = k
        · have : g ≠ key := by omega
          simp [hg, Ne.symm hne]
        · simp [hg]

theorem mapSum_mapIncr (c : Config) (r : List (Nat × Nat)) (key : Nat) (h : KeysSorted r) :
    mapSum (mapIncr c r key) + (mapFind r key).getD 0 =
      mapSum r + wrapIT c ((mapFind r key).getD 0 + 1) := by
  induction r with
  | nil => simp [mapIncr, mapFind, mapSum]
  | cons b rest ih =>
    obtain ⟨k, v⟩ := b
    unfold KeysSorted at h ih
    obtain ⟨hhead, htail⟩ := List.pairwise_cons.mp h
    unfold mapIncr
    split
    · rename_i hlt
      have hnone : mapFind ((k, v) :: rest) key = none := by
        apply mapFind_none_of_ne
        intro a ha
        rcases List.mem_cons.mp ha with e | e
        · rw [e]; show k ≠ key; omega
        · have := hhead a e; omega
      rw [hnone]
      simp [mapSum]
      omega
    · split
      · rename_i hnlt heq
        subst heq
        simp [mapFind, mapSum]
        omega
      · rename_i hnlt hne
        have := ih htail
        simp only [mapFind, hne, if_false]
        simp only [mapSum, List.map_cons, List.sum_cons] at this ⊢
        omega

theorem tally_congr (c : Config) (r : List (Nat × Nat)) {f f2 : Nat → Nat} {t t2 : Nat}
    (hf : ∀ g, f g = f2 g) (ht : t = t2) (h : Tally c r f t) : Tally c r f2 t2 := by
  have e : f = f2 := funext hf
  subst e; subst ht; exact h

theorem tally_nil (c : Config) : Tally c [] (fun _ => 0) 0 := by
  refine ⟨List.Pairwise.nil, ?_, ?_⟩
  · intro g; simp [mapFind, entryAfter]
  · intro _; simp [mapSum]

theorem wrapIT_succ (c : Config) (a : Nat) : wrapIT c (wrapIT c a + 1) = wrapIT c (a + 1) := by
  unfold wrapIT
  rw [Nat.add_mod (a % 2 ^ c.itBits), Nat.mod_mod, ← Nat.add_mod]

theorem tally_incr (c : Config) (r : List (Nat × Nat)) (f : Nat → Nat) (t key : Nat)
    (h : Tally c r f t) :
    Tally c (mapIncr c r key) (fun g => f g + (if g = key then 1 else 0)) (t + 1) := by
  obtain ⟨hs, hfind, hsum⟩ := h
  refine ⟨mapIncr_sorted c r key hs, ?_, ?_⟩
  · intro g
    rw [mapFind_mapIncr c r key g hs]
    by_cases hg : g = key
    · subst hg
      simp only [if_true, hfind g]
      by_cases h0 : f g = 0
      · simp [entryAfter, h0]
      · simp [entryAfter, h0, wrapIT_succ]
    · simp [hg, hfind g]
  · intro hb
    have hb1 : ∀ g, f g < 2 ^ c.itBits := by
      intro g
      have := hb g
      simp only at this
      omega
    have hk : f key + 1 < 2 ^ c.itBits := by
      have := hb key
      simpa using this
    have e := mapSum_mapIncr c r key hs
    rw [hsum hb1, hfind key] at e
    have hget : (entryAfter c (f key)).getD 0 = f key := by
      by_cases h0 : f key = 0
      · simp [entryAfter, h0]
      · simp only [entryAfter, h0, if_false, Option.getD_some]
        exact wrapIT_of_lt c (by omega)
    rw [hget, wrapIT_of_lt c hk] at e
    omega

theorem tally_foldlM {α : Type} (c : Config)
    (step : List (Nat × Nat) → α → Option (List (Nat × Nat)))
    (cnt : α → Nat → Nat) (tot : α → Nat) :
    ∀ (xs : List α),
      (∀ x ∈ xs, ∀ r f t, Tally c r f t →
        ∃ r2, step r x = some r2 ∧ Tally c r2 (fun g => f g + cnt x g) (t + tot x)) →
      ∀ r f t, Tally c r f t →
        ∃ r2, xs.foldlM step r = some r2 ∧
          Tally c r2 (fun g => f g + (xs.map (fun x => cnt x g)).sum)
            (t + (xs.map tot).sum) := by
  intro xs
  induction xs with
  | nil =>
    intro _ r f t h
    exact ⟨r, rfl, tally_congr c r (fun g => by simp) (by simp) h⟩
  | cons x rest ih =>
    intro hstep r f t h
    obtain ⟨r1, e1, h1⟩ := hstep x (List.mem_cons_self _ _) r f t h
    obtain ⟨r2, e2, h2⟩ :=
      ih (fun y hy => hstep y (List.mem_cons_of_mem _ hy)) r1 _ _ h1
    refine ⟨r2, ?_, ?_⟩
    · rw [List.foldlM_cons, e1]
      exact e2
    · refine tally_congr c r2 (fun g => ?_) ?_ h2
      · simp only [List.map_cons, List.sum_cons]; omega
      · simp only [List.map_cons, List.sum_cons]; omega

theorem countCell_tally (c : Config) (m : DenseMatrixOffsets) {i j : Nat}
    (hshape : FitsIndexTypes c m) (hwin : ColumnWindowInv c m) (hmask : MaskInv m)
    (hi : i < m.num_rows_) (hj : j < m.num_columns_)
    (r : List (Nat × Nat)) (f : Nat → Nat) (t : Nat) (h : Tally c r f t) :
    ∃ r2, countCell c m i j r = some r2 ∧
      Tally c r2 (fun g => f g + hit c m i j g) (t + setCount c m i j) := by
  have hkey : wrapIT c (j + m.low_column_rank_) = j + m.low_column_rank_ := by
    obtain ⟨hc, hhc⟩ := hwin
    have := lt_two_pow_of_le_maxIT c hhc
    exact wrapIT_of_lt c (by omega)
  unfold countCell
  rw [mask_read c m hshape hmask hi hj, hkey]
  by_cases hset : cellSet c m i j = true
  · refine ⟨_, rfl, ?_⟩
    simp only [hset, if_true]
    refine tally_congr c _ (fun g => ?_) ?_ (tally_incr c r f t (j + m.low_column_rank_) h)
    · simp [hit, hset]
    · simp [setCount, hset]
  · refine ⟨_, rfl, ?_⟩
    simp only [hset]
    refine tally_congr c _ (fun g => ?_) ?_ h
    · simp [hit, hset]
    · simp [setCount, hset]

/-! ### `nb_efferent_synapses` -/

theorem list_sum_range (F : Nat → Nat) (n : Nat) :
    ((List.range n).map F).sum = ∑ i ∈ Finset.range n, F i := by
  induction n with
  | zero => simp
  | succ k ih => rw [List.sum_range_succ, Finset.sum_range_succ, ih]

theorem countP_range_eq_sum (p : Nat → Bool) (n : Nat) :
    (List.range n).countP p = ∑ i ∈ Finset.range n, (if p i = true then 1 else 0) := by
  induction n with
  | zero => simp
  | succ k ih =>
    rw [List.range_succ, List.countP_append, Finset.sum_range_succ, ih]
    simp [List.countP_cons]

theorem columnDegree_eq_sum (c : Config) (m : DenseMatrixOffsets) (j : Nat) :
    columnDegree c m j = ∑ i ∈ Finset.range m.num_rows_, setCount c m i j := by
  unfold columnDegree setCount
  exact countP_range_eq_sum _ _

theorem columnDegree_le (c : Config) (m : DenseMatrixOffsets) (j : Nat) :
    columnDegree c m j ≤ m.num_rows_ := by
  unfold columnDegree
  calc (List.range m.num_rows_).countP _ ≤ (List.range m.num_rows_).length := List.countP_le_length _
    _ = m.num_rows_ := List.length_range _

theorem sum_hit_columns (c : Config) (m : DenseMatrixOffsets) (i g : Nat) :
    ∑ j ∈ Finset.range m.num_columns_, hit c m i j g =
      if m.low_column_rank_ ≤ g ∧ g - m.low_column_rank_ < m.num_columns_ then
        setCount c m i (g - m.low_column_rank_)
      else 0 := by
  by_cases hv : m.low_column_rank_ ≤ g ∧ g - m.low_column_rank_ < m.num_columns_
  · rw [if_pos hv]
    rw [Finset.sum_eq_single (g - m.low_column_rank_)]
    · have e : g = g - m.low_column_rank_ + m.low_column_rank_ := by omega
      unfold hit setCount
      by_cases hset : cellSet c m i (g - m.low_column_rank_) = true
      · simp [hset, ← e]
      · simp [hset]
    · intro j _ hne
      unfold hit
      rw [if_neg]
      intro hh
      apply hne
      omega
    · intro hnot
      exact absurd (Finset.mem_range.mpr hv.2) hnot
  · rw [if_neg hv]
    apply Finset.sum_eq_zero
    intro j hj
    unfold hit
    rw [if_neg]
    intro hh
    apply hv
    have := Finset.mem_range.mp hj
    omega

theorem sum_hit_all (c : Config) (m : DenseMatrixOffsets) (g : Nat) :
    ∑ i ∈ Finset.range m.num_rows_, ∑ j ∈ Finset.range m.num_columns_, hit c m i j g =
      degreeAt c m g := by
  unfold degreeAt
  simp only [sum_hit_columns]
  by_cases hv : m.low_column_rank_ ≤ g ∧ g - m.low_column_rank_ < m.num_columns_
  · simp only [if_pos hv, columnDegree_eq_sum]
  · simp [if_neg hv]

theorem scan_rows_tally (c : Config) (m : DenseMatrixOffsets)
    (hshape : FitsIndexTypes c m) (hwin : ColumnWindowInv c m) (hmask : MaskInv m) :
    ∃ r, (List.range m.num_rows_).foldlM
        (fun acc i =>
          (List.range m.num_columns_).foldlM (fun acc2 j => countCell c m i j acc2) acc) [] =
        some r ∧
      Tally c r (fun g => degreeAt c m g)
        (∑ i ∈ Finset.range m.num_rows_, ∑ j ∈ Finset.range m.num_columns_, setCount c m i j) := by
  obtain ⟨r, e, h⟩ := tally_foldlM c
    (fun acc i =>
      (List.range m.num_columns_).foldlM (fun acc2 j => countCell c m i j acc2) acc)
    (fun i g => ((List.range m.num_columns_).map (fun j => hit c m i j g)).sum)
    (fun i => ((List.range m.num_columns_).map (fun j => setCount c m i j)).sum)
    (List.range m.num_rows_)
    (fun i hi r f t h =>
      tally_foldlM c (fun acc2 j => countCell c m i j acc2)
        (fun j g => hit c m i j g) (fun j => setCount c m i j)
        (List.range m.num_columns_)
        (fun j hj r f t h =>
          countCell_tally c m hshape hwin hmask (List.mem_range.mp hi) (List.mem_range.mp hj)
            r f t h)
        r f t h)
    [] (fun _ => 0) 0 (tally_nil c)
  refine ⟨r, e, tally_congr c r (fun g => ?_) ?_ h⟩
  · simp only [Nat.zero_add, list_sum_range]
    exact sum_hit_all c m g
  · simp only [Nat.zero_add, list_sum_range]

theorem scan_columns_tally (c : Config) (m : DenseMatrixOffsets)
    (hshape : FitsIndexTypes c m) (hwin : ColumnWindowInv c m) (hmask : MaskInv m) :
    ∃ r, (List.range m.num_columns_).foldlM
        (fun acc j =>
          (List.range m.num_rows_).foldlM (fun acc2 i => countCell c m i j acc2) acc) [] =
        some r ∧
      Tally c r (fun g => degreeAt c m g)
        (∑ i ∈ Finset.range m.num_rows_, ∑ j ∈ Finset.range m.num_columns_, setCount c m i j) := by
  obtain ⟨r, e, h⟩ := tally_foldlM c
    (fun acc j =>
      (List.range m.num_rows_).foldlM (fun acc2 i => countCell c m i j acc2) acc)
    (fun j g => ((List.range m.num_rows_).map (fun i => hit c m i j g)).sum)
    (fun j => ((List.range m.num_rows_).map (fun i => setCount c m i j)).sum)
    (List.range m.num_columns_)
    (fun j hj r f t h =>
      tally_foldlM c (fun acc2 i => countCell c m i j acc2)
        (fun i g => hit c m i j g) (fun i => setCount c m i j)
        (List.range m.num_rows_)
        (fun i hi r f t h =>
          countCell_tally c m hshape hwin hmask (List.mem_range.mp hi) (List.mem_range.mp hj)
            r f t h)
        r f t h)
    [] (fun _ => 0) 0 (tally_nil c)
  refine ⟨r, e, tally_congr c r (fun g => ?_) ?_ h⟩
  · simp only [Nat.zero_add, list_sum_range]
    rw [Finset.sum_comm]
    exact sum_hit_all c m g
  · simp only [Nat.zero_add, list_sum_range]
    exact Finset.sum_comm

theorem degreeAt_lt (c : Config) (m : DenseMatrixOffsets) (hshape : FitsIndexTypes c m)
    (g : Nat) : degreeAt c m g < 2 ^ c.itBits := by
  obtain ⟨hit, _⟩ := hshape
  have hp := lt_two_pow_of_le_maxIT c hit
  unfold degreeAt
  split
  · rename_i hv
    have h1 := columnDegree_le c m (g - m.low_column_rank_)
    have h2 : m.num_rows_ * 1 ≤ m.num_rows_ * m.num_columns_ :=
      Nat.mul_le_mul_left _ (by omega)
    omega
  · exact Nat.two_pow_pos _

theorem nb_efferent_tally (c : Config) (m : DenseMatrixOffsets)
    (hshape : FitsIndexTypes c m) (hwin : ColumnWindowInv c m) (hmask : MaskInv m) :
    ∃ r, nb_efferent_synapses c m = some r ∧ KeysSorted r ∧
      (∀ g, mapFind r g = if degreeAt c m g = 0 then none else some (degreeAt c m g)) ∧
      mapSum r =
        ∑ i ∈ Finset.range m.num_rows_, ∑ j ∈ Finset.range m.num_columns_, setCount c m i j := by
  have key : ∃ r, nb_efferent_synapses c m = some r ∧
      Tally c r (fun g => degreeAt c m g)
        (∑ i ∈ Finset.range m.num_rows_, ∑ j ∈ Finset.range m.num_columns_,
          setCount c m i j) := by
    unfold nb_efferent_synapses
    cases hr : c.row_major
    · simpa using scan_columns_tally c m hshape hwin hmask
    · simpa using scan_rows_tally c m hshape hwin hmask
  obtain ⟨r, e, hs, hfind, hsum⟩ := key
  refine ⟨r, e, hs, ?_, hsum (degreeAt_lt c m hshape)⟩
  intro g
  rw [hfind g]
  unfold entryAfter
  rw [wrapIT_of_lt c (degreeAt_lt c m hshape g)]

theorem cellSet_iff (c : Config) (m : DenseMatrixOffsets) (i j : Nat) :
    cellSet c m i j = true ↔ m.mask_[addr c m i j]? = some true := by
  simp [cellSet]

theorem columnDegree_pos_iff (c : Config) (m : DenseMatrixOffsets) (j : Nat) :
    0 < columnDegree c m j ↔ ∃ i, i < m.num_rows_ ∧ m.mask_[addr c m i j]? = some true := by
  unfold columnDegree
  rw [List.countP_pos_iff]
  constructor
  · rintro ⟨i, hi, hset⟩
    exact ⟨i, List.mem_range.mp hi, (cellSet_iff c m i j).mp hset⟩
  · rintro ⟨i, hi, hset⟩
    exact ⟨i, List.mem_range.mpr hi, (cellSet_iff c m i j).mpr hset⟩

/-- When `num_rows * num_columns` fits the index types, the column window has
`num_columns` ranks and the mask has `num_rows * num_columns` entries,
`nb_efferent_synapses()` returns, in both layouts, a map with ascending keys in which a
global rank `g` holds the value `v` if and only if `g = j + low_column_rank` for a local
column `j < num_columns` with at least one row `i < num_rows` whose `mask[addr(i, j)]` is
set, `v` being the number of such rows. -/
theorem nb_efferent_synapses_of_fits (c : Config) (m : DenseMatrixOffsets)
    (hshape : FitsIndexTypes c m) (hwin : ColumnWindowInv c m) (hmask : MaskInv m) :
    ∃ r, nb_efferent_synapses c m = some r ∧ KeysSorted r ∧
      ∀ g v, mapFind r g = some v ↔
        ∃ j, j < m.num_columns_ ∧ g = j + m.low_column_rank_ ∧
          (∃ i, i < m.num_rows_ ∧ m.mask_[addr c m i j]? = some true) ∧
          v = columnDegree c m j := by
  obtain ⟨r, e, hs, hfind, _⟩ := nb_efferent_tally c m hshape hwin hmask
  refine ⟨r, e, hs, ?_⟩
  intro g v
  rw [hfind g]
  constructor
  · intro h
    by_cases h0 : degreeAt c m g = 0
    · simp [h0] at h
    · rw [if_neg h0] at h
      have hv : degreeAt c m g = v := Option.some.inj h
      unfold degreeAt at h0 hv
      by_cases hw : m.low_column_rank_ ≤ g ∧ g - m.low_column_rank_ < m.num_columns_
      · rw [if_pos hw] at h0 hv
        refine ⟨g - m.low_column_rank_, hw.2, by omega, ?_, hv.symm⟩
        exact (columnDegree_pos_iff c m _).mp (Nat.pos_of_ne_zero h0)
      · rw [if_neg hw] at h0
        exact absurd rfl h0
  · rintro ⟨j, hj, hg, hex, hv⟩
    have hpos := (columnDegree_pos_iff c m j).mpr hex
    have hd : degreeAt c m g = columnDegree c m j := by
      unfold degreeAt
      have e2 : g - m.low_column_rank_ = j := by omega
      rw [if_pos ⟨by omega, by omega⟩, e2]
    rw [hd, if_neg (by omega), hv]

/-! ### `decode_column_indices` when the product fits the index types -/

/-- When `num_rows * num_columns` fits the index types and the mask has
`num_rows * num_columns` entries, `decode_column_indices(row)` for `row < num_rows`
returns, in both layouts, the strictly ascending list of exactly the local column indices
`col < num_columns` with `mask[addr(row, col)]` set. -/
theorem decode_column_indices_of_fits (c : Config) (m : DenseMatrixOffsets) (row : Nat)
    (hshape : FitsIndexTypes c m) (hmask : MaskInv m) (hrow : row < m.num_rows_) :
    ∃ indices, decode_column_indices c m row = some indices ∧
      indices.Pairwise (· < ·) ∧
      ∀ col, col ∈ indices ↔ (col < m.num_columns_ ∧ m.mask_[addr c m row col]? = some true) := by
  refine ⟨_, decode_eq_filter c m hshape hmask hrow, ?_, ?_⟩
  · exact (List.pairwise_lt_range _).filter _
  · intro col
    simp [List.mem_filter, cellSet]

/-! ### Claims on the constructor -/

/-- C6: with `IT` and `ST` both 32 bits wide, the constructor accepts the windows
`[0, 70000)` x `[0, 70000)` although the exact product `70000 * 70000` exceeds the
maximum of `ST`: the asserted product is computed in `IT` and has wrapped. -/
theorem construct_70000_accepted :
    maxST uint32RowMajor < 70000 * 70000 ∧
    wrapIT uint32RowMajor (70000 * 70000) = 605032704 ∧
    construct uint32RowMajor 0 70000 0 70000 = Construction.built (freshMatrix 70000 70000) := by
  decide

/-! ### Claims on `init_matrix_from_lil` -/

/-- C1: ingestion of `post_ranks = [1, 0]`, `pre_ranks = [[0], [1]]` into the windows
`[0, 2)` x `[0, 2)` succeeds, but row `post_ranks[0] = 1` then decodes to `[1]`, which is
`pre_ranks[1]` and not `pre_ranks[0] = [0]`: the loop reads `pre_ranks[row_idx]`. -/
theorem round_trip_reordered_rows :
    construct uint32RowMajor 0 2 0 2 = Construction.built (freshMatrix 2 2) ∧
    init_matrix_from_lil uint32RowMajor enoughMemory (freshMatrix 2 2) [1, 0] [[0], [1]] =
      Outcome.returned true { freshMatrix 2 2 with mask_ := [true, false, false, true] } ∧
    decode_column_indices uint32RowMajor
      { freshMatrix 2 2 with mask_ := [true, false, false, true] } 1 = some [1] := by
  decide

/-- C2: in the scenario with windows `[0, 10)` x `[0, 10)`, `post_ranks = [2, 5]` and
`pre_ranks = [[0, 3], [1]]`, the first iteration reads `pre_ranks[2]` of a vector of
two elements: the call does not succeed, in either layout. -/
theorem scenario_reads_outside_pre_ranks :
    construct uint32RowMajor 0 10 0 10 = Construction.built (freshMatrix 10 10) ∧
    init_matrix_from_lil uint32RowMajor enoughMemory (freshMatrix 10 10) [2, 5] [[0, 3], [1]] =
      Outcome.undefined ∧
    init_matrix_from_lil uint32ColMajor enoughMemory (freshMatrix 10 10) [2, 5] [[0, 3], [1]] =
      Outcome.undefined := by
  decide

/-- C8: with a passing memory check and the in-window input `post_ranks = [1]`,
`pre_ranks = [[0]]` (windows `[0, 2)` x `[0, 2)`), the call does not return `true`: it reads
`pre_ranks[1]` of a vector of one element.  With a failing check the same input gives
`false` and the object unchanged. -/
theorem in_window_input_not_true :
    construct uint32RowMajor 0 2 0 2 = Construction.built (freshMatrix 2 2) ∧
    init_matrix_from_lil uint32RowMajor enoughMemory (freshMatrix 2 2) [1] [[0]] =
      Outcome.undefined ∧
    init_matrix_from_lil uint32RowMajor noMemory (freshMatrix 2 2) [1] [[0]] =
      Outcome.returned false (freshMatrix 2 2) := by
  decide

/-- C9: when `post_ranks` and `pre_ranks` differ in length, `init_matrix_from_lil` halts
on its first assertion, whatever the free-memory check would report, with the object
(the mask included) as it was. -/
theorem init_matrix_from_lil_length_mismatch (c : Config) (chk : Nat → Bool)
    (m : DenseMatrixOffsets) (post_ranks : List Nat) (pre_ranks : List (List Nat))
    (h : post_ranks.length ≠ pre_ranks.length) :
    init_matrix_from_lil c chk m post_ranks pre_ranks = Outcome.fatal m :=
  init_fatal_of_length_ne c chk m post_ranks pre_ranks h

theorem init_matrix_from_lil_length_mismatch_witness :
    [0, 1].length ≠ [[0]].length ∧
    init_matrix_from_lil uint32RowMajor noMemory sampleMatrix [0, 1] [[0]] =
      Outcome.fatal sampleMatrix :=
  ⟨by decide,
    init_matrix_from_lil_length_mismatch uint32RowMajor noMemory sampleMatrix [0, 1] [[0]]
      (by decide)⟩

/-- C10: with `IT` and `ST` both 32 bits wide the windows `[0, 70000)` x `[0, 70000)` are
accepted by the constructor, `init_matrix_from_lil` on the empty adjacency input returns
`true`, and the mask then has `605032704` entries, not `70000 * 70000 = 4900000000`. -/
theorem mask_length_wrapped_70000 :
    construct uint32RowMajor 0 70000 0 70000 = Construction.built (freshMatrix 70000 70000) ∧
    init_matrix_from_lil uint32RowMajor enoughMemory (freshMatrix 70000 70000) [] [] =
      Outcome.returned true
        { freshMatrix 70000 70000 with mask_ := List.replicate 605032704 false } ∧
    (List.replicate 605032704 false).length = 605032704 ∧
    (freshMatrix 70000 70000).num_rows_ * (freshMatrix 70000 70000).num_columns_ =
      4900000000 :=
  ⟨by decide, rfl, List.length_replicate _ _, by decide⟩

/-! ### The ingestion loop of `init_matrix_from_lil` -/

theorem set_true_iff (mask : List Bool) {idx : Nat} (hidx : idx < mask.length) (a : Nat) :
    (mask.set idx true)[a]? = some true ↔ (mask[a]? = some true ∨ a = idx) := by
  rw [List.getElem?_set]
  by_cases h : idx = a
  · subst h
    simp [hidx]
  · have h2 : a ≠ idx := fun e => h e.symm
    simp [h, h2]

theorem setCell_eq (c : Config) (m : DenseMatrixOffsets) {row q : Nat} (mask : List Bool)
    (hshape : FitsIndexTypes c m) (hwin : ColumnWindowInv c m)
    (hlen : mask.length = m.num_rows_ * m.num_columns_) (hrow : row < m.num_rows_)
    (hq : m.low_column_rank_ ≤ q ∧ q < m.high_column_rank_) :
    setCell c m row mask q =
      some (mask.set (addr c m row (q - m.low_column_rank_)) true) := by
  obtain ⟨hc, hhc⟩ := hwin
  have hq2 : q < 2 ^ c.itBits := by
    have := lt_two_pow_of_le_maxIT c hhc
    omega
  have hcol : q - m.low_column_rank_ < m.num_columns_ := by omega
  unfold setCell
  simp only [subIT_of_le c hq.1 hq2, flatIndex_eq_addr c m hshape.1 hrow hcol]
  rw [if_pos]
  rw [hlen]
  exact addr_lt c m hrow hcol

theorem ingest_columns (c : Config) (m : DenseMatrixOffsets) {row : Nat}
    (hshape : FitsIndexTypes c m) (hwin : ColumnWindowInv c m) (hrow : row < m.num_rows_) :
    ∀ (qs : List Nat) (mask : List Bool),
      mask.length = m.num_rows_ * m.num_columns_ →
      (∀ q ∈ qs, m.low_column_rank_ ≤ q ∧ q < m.high_column_rank_) →
      ∃ mask2, qs.foldlM (setCell c m row) mask = some mask2 ∧
        mask2.length = m.num_rows_ * m.num_columns_ ∧
        ∀ a, mask2[a]? = some true ↔
          (mask[a]? = some true ∨ ∃ q ∈ qs, a = addr c m row (q - m.low_column_rank_)) := by
  intro qs
  induction qs with
  | nil =>
    intro mask hlen _
    exact ⟨mask, rfl, hlen, fun a => by simp⟩
  | cons q rest ih =>
    intro mask hlen hqs
    have hq := hqs q (List.mem_cons_self _ _)
    have hidx : addr c m row (q - m.low_column_rank_) < mask.length := by
      rw [hlen]
      exact addr_lt c m hrow (by obtain ⟨hc, _⟩ := hwin; omega)
    obtain ⟨mask2, e2, hlen2, h2⟩ :=
      ih (mask.set (addr c m row (q - m.low_column_rank_)) true)
        (by rw [List.length_set]; exact hlen)
        (fun x hx => hqs x (List.mem_cons_of_mem _ hx))
    refine ⟨mask2, ?_, hlen2, ?_⟩
    · rw [List.foldlM_cons, setCell_eq c m mask hshape hwin hlen hrow hq]
      exact e2
    · intro a
      rw [h2 a, set_true_iff mask hidx a]
      constructor
      · rintro ((h | h) | ⟨x, hx, h⟩)
        · left; exact h
        · right; exact ⟨q, List.mem_cons_self _ _, h⟩
        · right; exact ⟨x, List.mem_cons_of_mem _ hx, h⟩
      · rintro (h | ⟨x, hx, h⟩)
        · left; left; exact h
        · rcases List.mem_cons.mp hx with e | e
          · left; right; rw [← e]; exact h
          · right; exact ⟨x, e, h⟩

theorem ingest_rows (c : Config) (m : DenseMatrixOffsets) (pre_ranks : List (List Nat))
    (hshape : FitsIndexTypes c m) (hrwin : RowWindowInv c m) (hcwin : ColumnWindowInv c m)
    (hpre : ∀ qs ∈ pre_ranks, ∀ q ∈ qs, m.low_column_rank_ ≤ q ∧ q < m.high_column_rank_) :
    ∀ (ps : List Nat) (mask : List Bool),
      mask.length = m.num_rows_ * m.num_columns_ →
      (∀ p ∈ ps, m.low_row_rank_ ≤ p ∧ p < m.high_row_rank_ ∧
        p - m.low_row_rank_ < pre_ranks.length) →
      ∃ mask2, ps.foldlM (ingestRow c m pre_ranks) mask = some mask2 ∧
        mask2.length = m.num_rows_ * m.num_columns_ ∧
        ∀ a, mask2[a]? = some true ↔ (mask[a]? = some true ∨ Written c m pre_ranks ps a) := by
  intro ps
  induction ps with
  | nil =>
    intro mask hlen _
    exact ⟨mask, rfl, hlen, fun a => by simp [Written]⟩
  | cons p rest ih =>
    intro mask hlen hps
    obtain ⟨hp1, hp2, hp3⟩ := hps p (List.mem_cons_self _ _)
    obtain ⟨hr, hhr⟩ := hrwin
    have hp4 : p < 2 ^ c.itBits := by
      have := lt_two_pow_of_le_maxIT c hhr
      omega
    have hrow : p - m.low_row_rank_ < m.num_rows_ := by omega
    have hget : pre_ranks[p - m.low_row_rank_]? = some pre_ranks[p - m.low_row_rank_] :=
      List.getElem?_eq_getElem hp3
    obtain ⟨mask1, e1, hlen1, h1⟩ :=
      ingest_columns c m hshape hcwin hrow pre_ranks[p - m.low_row_rank_] mask hlen
        (hpre _ (List.getElem_mem _))
    obtain ⟨mask2, e2, hlen2, h2⟩ :=
      ih mask1 hlen1 (fun x hx => hps x (List.mem_cons_of_mem _ hx))
    refine ⟨mask2, ?_, hlen2, ?_⟩
    · rw [List.foldlM_cons]
      unfold ingestRow
      simp only [subIT_of_le c hp1 hp4, hget]
      rw [e1]
      exact e2
    · intro a
      rw [h2 a, h1 a]
      unfold Written
      constructor
      · rintro ((h | ⟨q, hq, h⟩) | ⟨x, hx, rest2⟩)
        · left; exact h
        · right; exact ⟨p, List.mem_cons_self _ _, _, hget, q, hq, h⟩
        · right; exact ⟨x, List.mem_cons_of_mem _ hx, rest2⟩
      · rintro (h | ⟨x, hx, qs, hqs, q, hq, h⟩)
        · left; left; exact h
        · rcases List.mem_cons.mp hx with e | e
          · subst e
            rw [hget] at hqs
            have e3 := Option.some.inj hqs
            subst e3
            left; right; exact ⟨q, hq, h⟩
          · right; exact ⟨x, e, qs, hqs, q, hq, h⟩

theorem addr_with_mask (c : Config) (m : DenseMatrixOffsets) (mask : List Bool) (i j : Nat) :
    addr c { m with mask_ := mask } i j = addr c m i j := rfl

theorem mul_add_inj {n a b a2 b2 : Nat} (hb : b < n) (hb2 : b2 < n)
    (h : a * n + b = a2 * n + b2) : a = a2 ∧ b = b2 := by
  rcases Nat.lt_trichotomy a a2 with h1 | h1 | h1
  · have h2 : (a + 1) * n ≤ a2 * n := Nat.mul_le_mul_right n h1
    have h3 : (a + 1) * n = a * n + n := by ring
    omega
  · subst h1
    exact ⟨rfl, by omega⟩
  · have h2 : (a2 + 1) * n ≤ a * n := Nat.mul_le_mul_right n h1
    have h3 : (a2 + 1) * n = a2 * n + n := by ring
    omega

theorem addr_inj (c : Config) (m : DenseMatrixOffsets) {i j i2 j2 : Nat}
    (hi : i < m.num_rows_) (hj : j < m.num_columns_)
    (hi2 : i2 < m.num_rows_) (hj2 : j2 < m.num_columns_)
    (h : addr c m i j = addr c m i2 j2) : i = i2 ∧ j = j2 := by
  unfold addr at h
  cases hr : c.row_major
  · simp only [hr, Bool.false_eq_true, if_false] at h
    exact (mul_add_inj hi hi2 h).symm
  · simp only [hr, if_true] at h
    exact mul_add_inj hj hj2 h

theorem mulIT_shape_of_fits (c : Config) (m : DenseMatrixOffsets)
    (hshape : FitsIndexTypes c m) :
    mulIT c m.num_rows_ m.num_columns_ = some (m.num_rows_ * m.num_columns_) :=
  mulIT_of_lt c (lt_two_pow_of_le_maxIT c hshape.1)

theorem memoryRequest_of_fits (c : Config) (m : DenseMatrixOffsets)
    (hshape : FitsIndexTypes c m) :
    memoryRequest c m =
      some (wrapSize (wrapIT c (m.num_columns_ * m.num_rows_) * c.mtSize)) := by
  have hlt : m.num_columns_ * m.num_rows_ < 2 ^ c.itBits := by
    rw [Nat.mul_comm]
    exact lt_two_pow_of_le_maxIT c hshape.1
  unfold memoryRequest
  rw [mulIT_of_lt c hlt, wrapIT_of_lt c hlt]

theorem init_returns_true (c : Config) (chk : Nat → Bool) (m : DenseMatrixOffsets)
    (post_ranks : List Nat) (pre_ranks : List (List Nat))
    (hshape : FitsIndexTypes c m) (hrwin : RowWindowInv c m) (hcwin : ColumnWindowInv c m)
    (hmem : chk (wrapSize (wrapIT c (m.num_columns_ * m.num_rows_) * c.mtSize)) = true)
    (hlen : post_ranks.length = pre_ranks.length) (hfit : post_ranks.length ≤ maxIT c)
    (hpost : ∀ p ∈ post_ranks, m.low_row_rank_ ≤ p ∧ p < m.high_row_rank_ ∧
      p - m.low_row_rank_ < pre_ranks.length)
    (hpre : ∀ qs ∈ pre_ranks, ∀ q ∈ qs, m.low_column_rank_ ≤ q ∧ q < m.high_column_rank_) :
    ∃ mask2, init_matrix_from_lil c chk m post_ranks pre_ranks =
        Outcome.returned true { m with mask_ := mask2 } ∧
      mask2.length = m.num_rows_ * m.num_columns_ ∧
      ∀ a, mask2[a]? = some true ↔ Written c m pre_ranks post_ranks a := by
  obtain ⟨mask2, e2, hlen2, h2⟩ :=
    ingest_rows c m pre_ranks hshape hrwin hcwin hpre post_ranks
      (List.replicate (m.num_rows_ * m.num_columns_) false) (List.length_replicate _ _) hpost
  refine ⟨mask2, ?_, hlen2, ?_⟩
  · exact init_of_ingest c chk m post_ranks pre_ranks _ _ mask2 hlen hfit
      (memoryRequest_of_fits c m hshape) hmem (mulIT_shape_of_fits c m hshape) e2
  · intro a
    rw [h2 a, List.getElem?_replicate]
    constructor
    · rintro (h | h)
      · split at h <;> simp at h
      · exact h
    · intro h
      exact Or.inr h

theorem nodup_of_lilPairs :
    ∀ (post_ranks : List Nat) (pre_ranks : List (List Nat)),
      post_ranks.length = pre_ranks.length → (lilPairs post_ranks pre_ranks).Nodup →
      ∀ qs ∈ pre_ranks, qs.Nodup := by
  intro post_ranks
  induction post_ranks with
  | nil =>
    intro pre_ranks hlen _ qs hqs
    have : pre_ranks = [] := List.length_eq_zero.mp hlen.symm
    subst this
    simp at hqs
  | cons p ps ih =>
    intro pre_ranks hlen hnd qs hqs
    cases pre_ranks with
    | nil => simp at hqs
    | cons q0 qss =>
      simp only [lilPairs] at hnd
      obtain ⟨h1, h2, _⟩ := List.nodup_append.mp hnd
      rcases List.mem_cons.mp hqs with e | e
      · subst e
        exact List.Nodup.of_map _ h1
      · exact ih qss (by simpa using hlen) h2 qs e

theorem length_lilPairs :
    ∀ (post_ranks : List Nat) (pre_ranks : List (List Nat)),
      post_ranks.length = pre_ranks.length →
      (lilPairs post_ranks pre_ranks).length = (pre_ranks.map List.length).sum := by
  intro post_ranks
  induction post_ranks with
  | nil =>
    intro pre_ranks hlen
    have : pre_ranks = [] := List.length_eq_zero.mp hlen.symm
    subst this
    simp [lilPairs]
  | cons p ps ih =>
    intro pre_ranks hlen
    cases pre_ranks with
    | nil => simp at hlen
    | cons q0 qss =>
      simp only [lilPairs, List.length_append, List.length_map, List.map_cons, List.sum_cons]
      rw [ih qss (by simpa using hlen)]

theorem sum_window_indicator (low n : Nat) :
    ∀ (qs : List Nat), qs.Nodup → (∀ q ∈ qs, low ≤ q ∧ q < low + n) →
      ∑ j ∈ Finset.range n, (if j + low ∈ qs then 1 else 0) = qs.length := by
  intro qs
  induction qs with
  | nil => intro _ _; simp
  | cons q rest ih =>
    intro hnd hwin
    obtain ⟨hq, hrest⟩ := List.nodup_cons.mp hnd
    have hqw := hwin q (List.mem_cons_self _ _)
    have hsplit : ∀ j ∈ Finset.range n,
        (if j + low ∈ q :: rest then 1 else 0) =
          (if j = q - low then 1 else 0) + (if j + low ∈ rest then 1 else 0) := by
      intro j _
      by_cases h1 : j = q - low
      · have e : j + low = q := by omega
        rw [e, if_pos (List.mem_cons_self _ _), if_pos h1, if_neg hq]
      · have e : j + low ≠ q := by omega
        rw [if_neg h1]
        by_cases h2 : j + low ∈ rest
        · rw [if_pos h2, if_pos (List.mem_cons_of_mem _ h2)]
        · rw [if_neg h2, if_neg]
          intro hh
          rcases List.mem_cons.mp hh with e3 | e3
          · exact e e3
          · exact h2 e3
    rw [Finset.sum_congr rfl hsplit, Finset.sum_add_distrib,
      ih hrest (fun x hx => hwin x (List.mem_cons_of_mem _ hx))]
    rw [Finset.sum_ite_eq' (Finset.range n) (q - low) (fun _ => 1)]
    rw [if_pos (Finset.mem_range.mpr (by omega))]
    simp [Nat.add_comm]

theorem sum_getD_length :
    ∀ (pre_ranks : List (List Nat)) (n : Nat), pre_ranks.length ≤ n →
      ∑ i ∈ Finset.range n, (pre_ranks[i]?.getD []).length =
        (pre_ranks.map List.length).sum := by
  intro pre_ranks
  induction pre_ranks with
  | nil => intro n _; simp
  | cons q0 qss ih =>
    intro n hn
    cases n with
    | zero => simp at hn
    | succ k =>
      rw [Finset.sum_range_succ']
      simp only [List.getElem?_cons_succ, List.getElem?_cons_zero, Option.getD_some,
        List.map_cons, List.sum_cons]
      rw [ih k (by simpa using hn)]
      omega

theorem mem_of_getElem_some {α : Type} {l : List α} {i : Nat} {a : α} (h : l[i]? = some a) :
    a ∈ l :=
  List.mem_iff_getElem?.mpr ⟨i, h⟩

theorem mem_of_ordered {post_ranks : List Nat} {low p : Nat}
    (horder : ∀ i, i < post_ranks.length → post_ranks[i]? = some (low + i))
    (hp : p ∈ post_ranks) : ∃ i, i < post_ranks.length ∧ p = low + i := by
  obtain ⟨i, hi⟩ := List.mem_iff_getElem?.mp hp
  have hlt : i < post_ranks.length := by
    by_contra hcon
    rw [List.getElem?_eq_none (by omega)] at hi
    exact Option.noConfusion hi
  rw [horder i hlt] at hi
  exact ⟨i, hlt, (Option.some.inj hi).symm⟩

theorem ordered_mem {post_ranks : List Nat} {low i : Nat}
    (horder : ∀ i, i < post_ranks.length → post_ranks[i]? = some (low + i))
    (hi : i < post_ranks.length) : low + i ∈ post_ranks :=
  List.mem_iff_getElem?.mpr ⟨i, horder i hi⟩

theorem written_iff_of_ordered (c : Config) (m : DenseMatrixOffsets)
    (post_ranks : List Nat) (pre_ranks : List (List Nat))
    (hrwin : RowWindowInv c m) (hcwin : ColumnWindowInv c m)
    (hlen : post_ranks.length = pre_ranks.length)
    (horder : ∀ i, i < post_ranks.length → post_ranks[i]? = some (m.low_row_rank_ + i))
    (hpost : ∀ p ∈ post_ranks, m.low_row_rank_ ≤ p ∧ p < m.high_row_rank_)
    (hpre : ∀ qs ∈ pre_ranks, ∀ q ∈ qs, m.low_column_rank_ ≤ q ∧ q < m.high_column_rank_)
    {i j : Nat} (hi : i < m.num_rows_) (hj : j < m.num_columns_) :
    Written c m pre_ranks post_ranks (addr c m i j) ↔
      j + m.low_column_rank_ ∈ pre_ranks[i]?.getD [] := by
  obtain ⟨hr, _⟩ := hrwin
  obtain ⟨hc, _⟩ := hcwin
  unfold Written
  constructor
  · rintro ⟨p, hp, qs, hqs, q, hq, h⟩
    have hpw := hpost p hp
    have hqw := hpre qs (mem_of_getElem_some hqs) q hq
    obtain ⟨e1, e2⟩ := addr_inj c m hi hj (by omega) (by omega) h
    rw [e1, hqs]
    have e3 : j + m.low_column_rank_ = q := by omega
    rw [e3]
    exact hq
  · intro h
    cases hget : pre_ranks[i]? with
    | none => rw [hget] at h; simp at h
    | some qs =>
      rw [hget] at h
      have hlt : i < pre_ranks.length := by
        by_contra hcon
        rw [List.getElem?_eq_none (by omega)] at hget
        exact Option.noConfusion hget
      refine ⟨m.low_row_rank_ + i, ordered_mem horder (by omega), qs, ?_,
        j + m.low_column_rank_, h, ?_⟩
      · rw [Nat.add_sub_cancel_left]; exact hget
      · rw [Nat.add_sub_cancel_left, Nat.add_sub_cancel]

/-- C4 (as stated, refuted): the input `post_ranks = [0]`, `pre_ranks = [[0, 0]]` (windows
`[0, 1)` x `[0, 1)`) is ingested successfully and holds two pairs, but the values of
`nb_efferent_synapses()` sum to `1`: the mask records a repeated pair once. -/
theorem repeated_pair_counted_once :
    construct uint32RowMajor 0 1 0 1 = Construction.built (freshMatrix 1 1) ∧
    init_matrix_from_lil uint32RowMajor enoughMemory (freshMatrix 1 1) [0] [[0, 0]] =
      Outcome.returned true { freshMatrix 1 1 with mask_ := [true] } ∧
    nb_efferent_synapses uint32RowMajor { freshMatrix 1 1 with mask_ := [true] } =
      some [(0, 1)] ∧
    mapSum [(0, 1)] = 1 ∧ ([[0, 0]].map List.length).sum = 2 := by
  decide

/-- C4 (amended): when the adjacency input has no duplicate `(post_rank, pre_rank)` pair,
lists the rows of the window in order from its first rank (`post_ranks[i] =
low_row_rank + i`), keeps all ranks inside the windows and the memory check passes, then
on an object with the shape invariants `init_matrix_from_lil` returns `true` and the
values of `nb_efferent_synapses()` sum to the sum over `i` of the length of
`pre_ranks[i]`. -/
theorem nb_efferent_synapses_total (c : Config) (chk : Nat → Bool) (m : DenseMatrixOffsets)
    (post_ranks : List Nat) (pre_ranks : List (List Nat))
    (hshape : FitsIndexTypes c m) (hrwin : RowWindowInv c m) (hcwin : ColumnWindowInv c m)
    (hmem : chk (wrapSize (wrapIT c (m.num_columns_ * m.num_rows_) * c.mtSize)) = true)
    (hlen : post_ranks.length = pre_ranks.length)
    (horder : ∀ i, i < post_ranks.length → post_ranks[i]? = some (m.low_row_rank_ + i))
    (hpost : ∀ p ∈ post_ranks, m.low_row_rank_ ≤ p ∧ p < m.high_row_rank_)
    (hpre : ∀ qs ∈ pre_ranks, ∀ q ∈ qs, m.low_column_rank_ ≤ q ∧ q < m.high_column_rank_)
    (hnodup : (lilPairs post_ranks pre_ranks).Nodup) :
    ∃ m2 r, init_matrix_from_lil c chk m post_ranks pre_ranks = Outcome.returned true m2 ∧
      nb_efferent_synapses c m2 = some r ∧
      mapSum r = (pre_ranks.map List.length).sum := by
  have hr := hrwin.1
  have hhr := hrwin.2
  have hc := hcwin.1
  have hrows : post_ranks.length ≤ m.num_rows_ := by
    by_contra hcon
    have h1 : m.num_rows_ < post_ranks.length := by omega
    have := (hpost _ (ordered_mem horder h1)).2
    omega
  have hfit : post_ranks.length ≤ maxIT c := by
    have h1 : m.num_rows_ ≤ m.high_row_rank_ := by omega
    omega
  have hpost2 : ∀ p ∈ post_ranks, m.low_row_rank_ ≤ p ∧ p < m.high_row_rank_ ∧
      p - m.low_row_rank_ < pre_ranks.length := by
    intro p hp
    obtain ⟨i, hi, e⟩ := mem_of_ordered horder hp
    have := hpost p hp
    refine ⟨this.1, this.2, ?_⟩
    omega
  obtain ⟨mask2, e2, hlen2, h2⟩ :=
    init_returns_true c chk m post_ranks pre_ranks hshape hrwin hcwin hmem hlen hfit hpost2 hpre
  obtain ⟨r, er, _, _, hsum⟩ :=
    nb_efferent_tally c { m with mask_ := mask2 } hshape hcwin hlen2
  refine ⟨_, r, e2, er, ?_⟩
  rw [hsum]
  have hnd := nodup_of_lilPairs post_ranks pre_ranks hlen hnodup
  have hrow : ∀ i ∈ Finset.range m.num_rows_,
      ∑ j ∈ Finset.range m.num_columns_, setCount c { m with mask_ := mask2 } i j =
        (pre_ranks[i]?.getD []).length := by
    intro i hi
    have hi2 := Finset.mem_range.mp hi
    have hcell : ∀ j ∈ Finset.range m.num_columns_,
        setCount c { m with mask_ := mask2 } i j =
          (if j + m.low_column_rank_ ∈ pre_ranks[i]?.getD [] then 1 else 0) := by
      intro j hj
      have hj2 := Finset.mem_range.mp hj
      have hiff : cellSet c { m with mask_ := mask2 } i j = true ↔
          j + m.low_column_rank_ ∈ pre_ranks[i]?.getD [] := by
        rw [cellSet_iff, addr_with_mask]
        show mask2[addr c m i j]? = some true ↔ _
        rw [h2]
        exact written_iff_of_ordered c m post_ranks pre_ranks hrwin hcwin hlen horder hpost hpre
          hi2 hj2
      unfold setCount
      by_cases hm : j + m.low_column_rank_ ∈ pre_ranks[i]?.getD []
      · rw [if_pos hm, if_pos (hiff.mpr hm)]
      · rw [if_neg hm, if_neg (fun hh => hm (hiff.mp hh))]
    show ∑ j ∈ Finset.range m.num_columns_, setCount c { m with mask_ := mask2 } i j = _
    rw [Finset.sum_congr rfl hcell]
    apply sum_window_indicator
    · cases hget : pre_ranks[i]? with
      | none => simp
      | some qs => exact hnd qs (mem_of_getElem_some hget)
    · intro q hq
      cases hget : pre_ranks[i]? with
      | none => rw [hget] at hq; simp at hq
      | some qs =>
        rw [hget] at hq
        have := hpre qs (mem_of_getElem_some hget) q hq
        simp only [Option.getD_some] at hq
        omega
  show ∑ i ∈ Finset.range m.num_rows_, ∑ j ∈ Finset.range m.num_columns_,
      setCount c { m with mask_ := mask2 } i j = _
  rw [Finset.sum_congr rfl hrow]
  exact sum_getD_length pre_ranks m.num_rows_ (by omega)

theorem nb_efferent_synapses_total_witness :
    FitsIndexTypes uint32ColMajor sampleMatrix ∧ RowWindowInv uint32ColMajor sampleMatrix ∧
    ColumnWindowInv uint32ColMajor sampleMatrix ∧
    (lilPairs [10, 11] [[21, 20], [22]]).Nodup ∧
    ∃ m2 r, init_matrix_from_lil uint32ColMajor enoughMemory sampleMatrix [10, 11]
        [[21, 20], [22]] = Outcome.returned true m2 ∧
      nb_efferent_synapses uint32ColMajor m2 = some r ∧
      mapSum r = ([[21, 20], [22]].map List.length).sum :=
  ⟨by decide, by decide, by decide, by decide,
    nb_efferent_synapses_total uint32ColMajor enoughMemory sampleMatrix [10, 11]
      [[21, 20], [22]] (by decide) (by decide) (by decide) rfl (by decide)
      (by intro i hi; have h2 : i < 2 := hi; interval_cases i <;> rfl) (by decide) (by decide) (by decide)⟩

/-! ### States reached through the constructor and a successful ingestion -/

theorem setCell_some (c : Config) (m : DenseMatrixOffsets) (row q : Nat)
    (mask mask2 : List Bool) (h : setCell c m row mask q = some mask2) :
    ∃ idx, flatIndex c m row (subIT c q m.low_column_rank_) = some idx ∧
      idx < mask.length ∧ mask2 = mask.set idx true := by
  unfold setCell at h
  cases hflat : flatIndex c m row (subIT c q m.low_column_rank_) with
  | none => simp [hflat] at h
  | some idx =>
    simp only [hflat] at h
    by_cases hidx : idx < mask.length
    · rw [if_pos hidx] at h
      exact ⟨idx, rfl, hidx, (Option.some.inj h).symm⟩
    · rw [if_neg hidx] at h
      exact Option.noConfusion h

theorem setCell_length (c : Config) (m : DenseMatrixOffsets) (row : Nat) :
    ∀ (qs : List Nat) (mask mask2 : List Bool),
      qs.foldlM (setCell c m row) mask = some mask2 → mask2.length = mask.length := by
  intro qs
  induction qs with
  | nil =>
    intro mask mask2 h
    have e : mask = mask2 := Option.some.inj h
    rw [e]
  | cons q rest ih =>
    intro mask mask2 h
    rw [List.foldlM_cons] at h
    cases hstep : setCell c m row mask q with
    | none => simp [hstep] at h
    | some mask1 =>
      simp only [hstep, Option.bind_eq_bind, Option.some_bind] at h
      obtain ⟨idx, _, _, e⟩ := setCell_some c m row q mask mask1 hstep
      rw [ih _ _ h, e, List.length_set]

theorem ingestRow_length (c : Config) (m : DenseMatrixOffsets) (pre_ranks : List (List Nat)) :
    ∀ (ps : List Nat) (mask mask2 : List Bool),
      ps.foldlM (ingestRow c m pre_ranks) mask = some mask2 → mask2.length = mask.length := by
  intro ps
  induction ps with
  | nil =>
    intro mask mask2 h
    have e : mask = mask2 := Option.some.inj h
    rw [e]
  | cons p rest ih =>
    intro mask mask2 h
    rw [List.foldlM_cons] at h
    unfold ingestRow at h
    cases hget : pre_ranks[subIT c p m.low_row_rank_]? with
    | none => simp [hget] at h
    | some qs =>
      simp only [hget, Option.bind_eq_bind] at h
      cases hin : qs.foldlM (setCell c m (subIT c p m.low_row_rank_)) mask with
      | none => simp [hin] at h
      | some mask1 =>
        simp only [hin, Option.some_bind] at h
        rw [ih _ _ h, setCell_length c m _ qs mask mask1 hin]

theorem init_true_mask_length (c : Config) (chk : Nat → Bool) (m m2 : DenseMatrixOffsets)
    (post_ranks : List Nat) (pre_ranks : List (List Nat))
    (h : init_matrix_from_lil c chk m post_ranks pre_ranks = Outcome.returned true m2) :
    m2.num_rows_ = m.num_rows_ ∧ m2.num_columns_ = m.num_columns_ ∧
      mulIT c m.num_rows_ m.num_columns_ = some m2.mask_.length := by
  obtain ⟨_, _, bytes, size, mask2, _, _, hsize, hfold, e⟩ :=
    init_true_inv c chk m m2 post_ranks pre_ranks h
  subst e
  refine ⟨rfl, rfl, ?_⟩
  show mulIT c m.num_rows_ m.num_columns_ = some mask2.length
  rw [ingestRow_length c m pre_ranks post_ranks _ mask2 hfold, List.length_replicate]
  exact hsize

theorem toLongLong_le (x : Nat) : toLongLong x ≤ (x : Int) := by
  unfold toLongLong
  have h1 : x % 2 ^ wordBits ≤ x := Nat.mod_le _ _
  have h2 : x % 2 ^ wordBits < 2 ^ wordBits := Nat.mod_lt _ (Nat.two_pow_pos _)
  split <;> omega

theorem toLongLong_of_lt (x : Nat) (h : x < 2 ^ 63) : toLongLong x = (x : Int) := by
  unfold toLongLong wordBits
  have h1 : x % 2 ^ 64 = x := Nat.mod_eq_of_lt (by omega)
  rw [h1, if_pos (by simpa using h)]

/-! ### Claims on the representability assertion and on flat addressing -/

theorem mulIT_lt_of_bits (c : Config) (hit : c.itBits ≤ 63) {a b p : Nat}
    (h : mulIT c a b = some p) : p < 2 ^ 63 := by
  unfold mulIT intBits at h
  split at h
  · split at h
    · have e := Option.some.inj h
      have h31 : (2 : Nat) ^ (32 - 1) ≤ 2 ^ 63 := by norm_num
      omega
    · exact Option.noConfusion h
  · have e := Option.some.inj h
    have hlt : wrapIT c (a * b) < 2 ^ c.itBits := Nat.mod_lt _ (Nat.two_pow_pos _)
    have hpow : 2 ^ c.itBits ≤ 2 ^ 63 := Nat.pow_le_pow_right (by norm_num) hit
    omega

theorem ctorAssertion_default_false (c : Config) (hit : c.itBits ≤ 63) (hst : c.stBits = 64)
    (num_rows num_columns : Nat) : ctorAssertion c num_rows num_columns ≠ some true := by
  unfold ctorAssertion
  cases hp : mulIT c num_rows num_columns with
  | none => simp
  | some p =>
    have hlt := mulIT_lt_of_bits c hit hp
    have hmax : toLongLong (maxST c) = -1 := by
      unfold maxST
      rw [hst]
      decide
    simp only [ne_eq, Option.some.injEq, decide_eq_true_eq]
    rw [toLongLong_of_lt _ hlt, hmax]
    omega

/-- C15: in the default instantiation (`IT` 32 bits, `ST` 64 bits) the constructor
rejects the windows `[0, 10)` x `[0, 10)`, whose product `100` is far below the maximum of
`ST`: `static_cast<long long>` of that maximum is `-1`, which no product is below. -/
theorem construct_default_rejects_small :
    10 * 10 < maxST defaultConfig ∧
    toLongLong (maxST defaultConfig) = -1 ∧
    ctorAssertion defaultConfig 10 10 = some false ∧
    construct defaultConfig 0 10 0 10 = Construction.aborted := by
  decide

/-- C16: with `IT` and `ST` both 32 bits wide the shape 70000 x 70000 is accepted and its
mask gets `605032704` entries; the flat index of cell `(10000, 0)` is `700000000`, outside
the mask, and the distinct cells `(0, 0)` and `(61356, 47296)` both have flat index `0`. -/
theorem flat_index_wraps_70000 :
    construct uint32RowMajor 0 70000 0 70000 = Construction.built (freshMatrix 70000 70000) ∧
    init_matrix_from_lil uint32RowMajor enoughMemory (freshMatrix 70000 70000) [] [] =
      Outcome.returned true
        { freshMatrix 70000 70000 with mask_ := List.replicate 605032704 false } ∧
    flatIndex uint32RowMajor (freshMatrix 70000 70000) 10000 0 = some 700000000 ∧
    (List.replicate 605032704 false).length ≤ 700000000 ∧
    (61356 < 70000 ∧ 47296 < 70000) ∧
    flatIndex uint32RowMajor (freshMatrix 70000 70000) 0 0 = some 0 ∧
    flatIndex uint32RowMajor (freshMatrix 70000 70000) 61356 47296 = some 0 :=
  ⟨by decide, rfl, by decide, by rw [List.length_replicate]; decide, by decide, by decide,
    by decide⟩

/-- C11: with `IT` and `ST` both 32 bits wide the windows `[0, 2147483649)` x `[0, 2)` are
accepted; after the successful ingestion of `post_ranks = [0]`, `pre_ranks = [[0]]` the row
`2147483648`, whose rank is not in `post_ranks`, decodes to `[0]`: its flat indices wrap
onto the cells of row `0`. -/
theorem spurious_connection_wrapped_row :
    construct uint32RowMajor 0 2147483649 0 2 = Construction.built (freshMatrix 2147483649 2) ∧
    init_matrix_from_lil uint32RowMajor enoughMemory (freshMatrix 2147483649 2) [0] [[0]] =
      Outcome.returned true { freshMatrix 2147483649 2 with mask_ := [true, false] } ∧
    2147483648 < (freshMatrix 2147483649 2).num_rows_ ∧
    2147483648 + (freshMatrix 2147483649 2).low_row_rank_ ∉ [0] ∧
    decode_column_indices uint32RowMajor
      { freshMatrix 2147483649 2 with mask_ := [true, false] } 2147483648 = some [0] := by
  decide
/-! ### Ingestion without wrapped indices: rows outside `post_ranks` stay empty -/

theorem ingestRow_inbounds (c : Config) (m : DenseMatrixOffsets) (pre_ranks : List (List Nat)) :
    ∀ (ps : List Nat) (mask mask2 : List Bool),
      ps.foldlM (ingestRow c m pre_ranks) mask = some mask2 →
      ∀ p ∈ ps, subIT c p m.low_row_rank_ < pre_ranks.length := by
  intro ps
  induction ps with
  | nil => intro _ _ _ p hp; simp at hp
  | cons p0 rest ih =>
    intro mask mask2 h p hp
    rw [List.foldlM_cons] at h
    cases hstep : ingestRow c m pre_ranks mask p0 with
    | none => simp [hstep] at h
    | some mask1 =>
      simp only [hstep, Option.bind_eq_bind, Option.some_bind] at h
      rcases List.mem_cons.mp hp with e | e
      · subst e
        unfold ingestRow at hstep
        by_contra hcon
        have hnone : pre_ranks[subIT c p m.low_row_rank_]? = none :=
          List.getElem?_eq_none (by omega)
        simp only [hnone] at hstep
        exact Option.noConfusion hstep
      · exact ih mask1 mask2 h p e

theorem written_of_init_true (c : Config) (chk : Nat → Bool) (m m2 : DenseMatrixOffsets)
    (post_ranks : List Nat) (pre_ranks : List (List Nat))
    (hshape : FitsIndexTypes c m) (hrwin : RowWindowInv c m) (hcwin : ColumnWindowInv c m)
    (hinit : init_matrix_from_lil c chk m post_ranks pre_ranks = Outcome.returned true m2)
    (hpost : ∀ p ∈ post_ranks, m.low_row_rank_ ≤ p ∧ p < m.high_row_rank_)
    (hpre : ∀ qs ∈ pre_ranks, ∀ q ∈ qs, m.low_column_rank_ ≤ q ∧ q < m.high_column_rank_) :
    ∃ mask2, m2 = { m with mask_ := mask2 } ∧
      mask2.length = m.num_rows_ * m.num_columns_ ∧
      ∀ a, mask2[a]? = some true ↔ Written c m pre_ranks post_ranks a := by
  obtain ⟨hlen, hfit, bytes, size, mask1, hreq, hmem0, hsize, hfold, e1⟩ :=
    init_true_inv c chk m m2 post_ranks pre_ranks hinit
  have hbytes := Option.some.inj ((memoryRequest_of_fits c m hshape).symm.trans hreq)
  have hmem : chk (wrapSize (wrapIT c (m.num_columns_ * m.num_rows_) * c.mtSize)) = true := by
    rw [hbytes]
    exact hmem0
  have hp := lt_two_pow_of_le_maxIT c hrwin.2
  have hpost2 : ∀ p ∈ post_ranks, m.low_row_rank_ ≤ p ∧ p < m.high_row_rank_ ∧
      p - m.low_row_rank_ < pre_ranks.length := by
    intro p hpm
    have hw := hpost p hpm
    have hb := ingestRow_inbounds c m pre_ranks post_ranks _ mask1 hfold p hpm
    rw [subIT_of_le c hw.1 (by omega)] at hb
    exact ⟨hw.1, hw.2, hb⟩
  obtain ⟨mask2, e2, hlen2, h2⟩ :=
    init_returns_true c chk m post_ranks pre_ranks hshape hrwin hcwin hmem hlen hfit hpost2 hpre
  rw [hinit] at e2
  have e3 : m2 = { m with mask_ := mask2 } := by injection e2
  exact ⟨mask2, e3, hlen2, h2⟩

theorem no_spurious_of_fits (c : Config) (chk : Nat → Bool) (m m2 : DenseMatrixOffsets)
    (post_ranks : List Nat) (pre_ranks : List (List Nat))
    (hshape : FitsIndexTypes c m) (hrwin : RowWindowInv c m) (hcwin : ColumnWindowInv c m)
    (hinit : init_matrix_from_lil c chk m post_ranks pre_ranks = Outcome.returned true m2)
    (hpost : ∀ p ∈ post_ranks, m.low_row_rank_ ≤ p ∧ p < m.high_row_rank_)
    (hpre : ∀ qs ∈ pre_ranks, ∀ q ∈ qs, m.low_column_rank_ ≤ q ∧ q < m.high_column_rank_)
    (r : Nat) (hr : r < m.num_rows_) (hnot : r + m.low_row_rank_ ∉ post_ranks) :
    decode_column_indices c m2 r = some [] := by
  obtain ⟨mask2, e, hlen2, h2⟩ :=
    written_of_init_true c chk m m2 post_ranks pre_ranks hshape hrwin hcwin hinit hpost hpre
  subst e
  have hdec := decode_eq_filter c { m with mask_ := mask2 } hshape hlen2 hr
  rw [hdec]
  congr 1
  apply List.filter_eq_nil_iff.mpr
  intro col hcol hset
  have hcol2 : col < m.num_columns_ := List.mem_range.mp hcol
  have hw : Written c m pre_ranks post_ranks (addr c m r col) := by
    rw [← h2]
    exact (cellSet_iff c { m with mask_ := mask2 } r col).mp hset
  obtain ⟨p, hp, qs, hqs, q, hq, ha⟩ := hw
  have hpw := hpost p hp
  have hqw := hpre qs (mem_of_getElem_some hqs) q hq
  have hr1 := hrwin.1
  have hc1 := hcwin.1
  obtain ⟨e1, _⟩ := addr_inj c m hr hcol2 (by omega) (by omega) ha
  apply hnot
  have e2 : r + m.low_row_rank_ = p := by omega
  rw [e2]
  exact hp

/-! ### The delay history of a population -/

theorem take_append_take {α : Type} :
    ∀ (A B : List α) (n k : Nat), n ≤ k → (A ++ B.take k).take n = (A ++ B).take n := by
  intro A
  induction A with
  | nil =>
    intro B n k h
    simp only [List.nil_append, List.take_take]
    rw [Nat.min_eq_left h]
  | cons a rest ih =>
    intro B n k h
    cases n with
    | zero => simp
    | succ n2 =>
      simp only [List.cons_append, List.take_succ_cons]
      rw [ih B n2 k (by omega)]

theorem metaStep_depth {α : Type} (p : RatePopulation α) (rates : List α) :
    (p.metaStep rates).delayedRates_.length = p.delayedRates_.length := by
  unfold RatePopulation.metaStep
  simp [List.length_take]

theorem runTicks_history {α : Type} :
    ∀ (ticks : List (List α)) (p : RatePopulation α),
      (p.runTicks ticks).delayedRates_ =
        (ticks.reverse ++ p.delayedRates_).take p.delayedRates_.length := by
  intro ticks
  induction ticks with
  | nil =>
    intro p
    simp [RatePopulation.runTicks]
  | cons w rest ih =>
    intro p
    have h := ih (p.metaStep w)
    rw [metaStep_depth] at h
    show ((p.metaStep w).runTicks rest).delayedRates_ = _
    rw [h]
    have e : (p.metaStep w).delayedRates_ = (w :: p.delayedRates_).take p.delayedRates_.length :=
      rfl
    rw [e, take_append_take _ _ _ _ (Nat.le_refl _)]
    simp [List.reverse_cons, List.append_assoc]

theorem setMaxDelay_depth {α : Type} (p : RatePopulation α) (D : Nat) (fill : List α)
    (h : p.delayedRates_.length ≤ D) : (p.setMaxDelay D fill).delayedRates_.length = D := by
  unfold RatePopulation.setMaxDelay
  simp only [List.length_append, List.length_replicate]
  omega

/-- C12: for a population whose history was brought to depth `D` by `setMaxDelay(D)` before
the first tick, the rate vector `v` pushed at a tick is what `getRs(d)` returns `d` ticks
later, after the `d - 1` pushes in between, for every `1 ≤ d ≤ D`, and `getRs([d], [rank])`
returns its entry `rank`; once `D` or more pushes have followed, the history is made of
those later pushes only, so `v` is no longer held. -/
theorem delay_history_semantics {α : Type} (p : RatePopulation α) (fill : List α)
    (D d : Nat) (before later : List (List α)) (v : List α)
    (hfresh : p.delayedRates_.length ≤ D) (hd : 1 ≤ d) (hD : d ≤ D)
    (hlater : later.length + 1 = d) :
    ((p.setMaxDelay D fill).runTicks (before ++ v :: later)).getRs d = some v ∧
    (∀ rank x, v[rank]? = some x →
      ((p.setMaxDelay D fill).runTicks (before ++ v :: later)).getRsRanks [d] [rank] =
        some [x]) ∧
    (∀ more, D ≤ (later ++ more).length →
      ((p.setMaxDelay D fill).runTicks (before ++ v :: later ++ more)).delayedRates_ =
        ((later ++ more).reverse).take D) := by
  have hdepth := setMaxDelay_depth p D fill hfresh
  have hget : ((p.setMaxDelay D fill).runTicks (before ++ v :: later)).getRs d = some v := by
    unfold RatePopulation.getRs
    rw [if_neg (by omega), runTicks_history, hdepth]
    rw [List.getElem?_take_of_lt (by omega)]
    simp only [List.reverse_append, List.reverse_cons, List.append_assoc]
    rw [List.getElem?_append_right (by simp; omega)]
    simp only [List.length_reverse]
    have e : d - 1 - later.length = 0 := by omega
    rw [e]
    simp
  refine ⟨hget, ?_, ?_⟩
  · intro rank x hx
    simp only [RatePopulation.getRsRanks, hget, hx]
    rfl
  · intro more hmore
    rw [runTicks_history, hdepth]
    have e : (before ++ v :: later ++ more).reverse =
        (later ++ more).reverse ++ (v :: before.reverse) := by
      simp [List.reverse_append, List.reverse_cons, List.append_assoc]
    rw [e, List.append_assoc]
    exact List.take_append_of_le_length (by rw [List.length_reverse]; exact hmore)

theorem delay_history_semantics_witness :
    emptyPopulation.delayedRates_.length ≤ 2 ∧ 1 ≤ 2 ∧ 2 ≤ 2 ∧ [[3]].length + 1 = 2 ∧
    ((emptyPopulation.setMaxDelay 2 [0]).runTicks ([[1]] ++ [7] :: [[3]])).getRs 2 = some [7] ∧
    (∀ rank x, [7][rank]? = some x →
      ((emptyPopulation.setMaxDelay 2 [0]).runTicks ([[1]] ++ [7] :: [[3]])).getRsRanks
        [2] [rank] = some [x]) ∧
    (∀ more, 2 ≤ ([[3]] ++ more).length →
      ((emptyPopulation.setMaxDelay 2 [0]).runTicks
        ([[1]] ++ [7] :: [[3]] ++ more)).delayedRates_ = (([[3]] ++ more).reverse).take 2) :=
  ⟨by decide, by decide, by decide, by decide,
    delay_history_semantics emptyPopulation [0] 2 2 [[1]] [[3]] [7] (by decide) (by decide)
      (by decide) (by decide)⟩

/-! ### Bounds on the counters of `nb_efferent_synapses` -/

theorem mapFind_of_mem (r : List (Nat × Nat)) (h : KeysSorted r) (g v : Nat)
    (hmem : (g, v) ∈ r) : mapFind r g = some v := by
  induction r with
  | nil => simp at hmem
  | cons a rest ih =>
    obtain ⟨k, w⟩ := a
    unfold KeysSorted at h ih
    obtain ⟨hhead, htail⟩ := List.pairwise_cons.mp h
    rcases List.mem_cons.mp hmem with e | e
    · have e1 : g = k := congrArg Prod.fst e
      have e2 : v = w := congrArg Prod.snd e
      simp [mapFind, e1, e2]
    · have hlt := hhead (g, v) e
      have hne : g ≠ k := by
        intro hh
        simp only [hh] at hlt
        exact Nat.lt_irrefl _ hlt
      simp only [mapFind, hne, if_false]
      exact ih htail e

theorem nested_tally {α β : Type} (c : Config)
    (step : List (Nat × Nat) → α → β → Option (List (Nat × Nat)))
    (cnt : α → β → Nat → Nat) (tot : α → β → Nat) (xs : List α) (ys : List β)
    (hstep : ∀ x ∈ xs, ∀ y ∈ ys, ∀ r f t, Tally c r f t →
      ∃ r2, step r x y = some r2 ∧ Tally c r2 (fun g => f g + cnt x y g) (t + tot x y)) :
    ∃ r, xs.foldlM (fun acc x => ys.foldlM (fun acc2 y => step acc2 x y) acc) [] = some r ∧
      KeysSorted r ∧
      ∀ g, mapFind r g =
        entryAfter c ((xs.map (fun x => (ys.map (fun y => cnt x y g)).sum)).sum) := by
  obtain ⟨r, e, h⟩ := tally_foldlM c
    (fun acc x => ys.foldlM (fun acc2 y => step acc2 x y) acc)
    (fun x g => (ys.map (fun y => cnt x y g)).sum)
    (fun x => (ys.map (fun y => tot x y)).sum)
    xs
    (fun x hx r f t h =>
      tally_foldlM c (fun acc2 y => step acc2 x y) (fun y g => cnt x y g) (fun y => tot x y)
        ys (fun y hy r f t h => hstep x hx y hy r f t h) r f t h)
    [] (fun _ => 0) 0 (tally_nil c)
  refine ⟨r, e, h.1, ?_⟩
  intro g
  rw [h.2.1 g]
  simp

theorem countCell_visit (c : Config) (m : DenseMatrixOffsets) {i j : Nat}
    (hread : (maskRead c m i j).isSome = true)
    (r : List (Nat × Nat)) (f : Nat → Nat) (t : Nat) (h : Tally c r f t) :
    ∃ r2, countCell c m i j r = some r2 ∧
      Tally c r2 (fun g => f g + visitHit c m i j g)
        (t + if maskRead c m i j = some true then 1 else 0) := by
  unfold countCell
  cases hb : maskRead c m i j with
  | none =>
    rw [hb] at hread
    exact Bool.noConfusion hread
  | some b =>
    cases b
    · refine ⟨_, rfl, ?_⟩
      refine tally_congr c _ (fun g => ?_) ?_ h
      · simp [visitHit, hb]
      · simp
    · refine ⟨_, rfl, ?_⟩
      simp only [if_true]
      refine tally_congr c _ (fun g => ?_) ?_
        (tally_incr c r f t (wrapIT c (j + m.low_column_rank_)) h)
      · simp [visitHit, hb]
      · simp

theorem key_inj (c : Config) (low : Nat) {j j2 : Nat}
    (hj : j < 2 ^ c.itBits) (hj2 : j2 < 2 ^ c.itBits)
    (h : wrapIT c (j + low) = wrapIT c (j2 + low)) : j = j2 := by
  unfold wrapIT at h
  have h1 : j + low ≡ j2 + low [MOD 2 ^ c.itBits] := h
  have h2 : j ≡ j2 [MOD 2 ^ c.itBits] := Nat.ModEq.add_right_cancel' low h1
  have h3 : j % 2 ^ c.itBits = j2 % 2 ^ c.itBits := h2
  rw [Nat.mod_eq_of_lt hj, Nat.mod_eq_of_lt hj2] at h3
  exact h3

theorem sum_visitHit_columns_le (c : Config) (m : DenseMatrixOffsets)
    (hcols : m.num_columns_ ≤ maxIT c) (i g : Nat) :
    ∑ j ∈ Finset.range m.num_columns_, visitHit c m i j g ≤ 1 := by
  have hp := lt_two_pow_of_le_maxIT c hcols
  by_cases hex : ∃ j0, j0 < m.num_columns_ ∧ g = wrapIT c (j0 + m.low_column_rank_)
  · obtain ⟨j0, hj0, hg⟩ := hex
    rw [Finset.sum_eq_single_of_mem j0 (Finset.mem_range.mpr hj0)]
    · unfold visitHit
      split <;> omega
    · intro j hj hne
      unfold visitHit
      rw [if_neg]
      rintro ⟨_, hg2⟩
      apply hne
      have hj1 := Finset.mem_range.mp hj
      exact key_inj c m.low_column_rank_ (by omega) (by omega) (hg2.symm.trans hg)
  · have hz : ∑ j ∈ Finset.range m.num_columns_, visitHit c m i j g = 0 := by
      apply Finset.sum_eq_zero
      intro j hj
      unfold visitHit
      rw [if_neg]
      rintro ⟨_, hg2⟩
      exact hex ⟨j, Finset.mem_range.mp hj, hg2⟩
    omega

theorem sum_visitHit_le (c : Config) (m : DenseMatrixOffsets)
    (hcols : m.num_columns_ ≤ maxIT c) (g : Nat) :
    ∑ i ∈ Finset.range m.num_rows_, ∑ j ∈ Finset.range m.num_columns_, visitHit c m i j g ≤
      m.num_rows_ := by
  calc ∑ i ∈ Finset.range m.num_rows_, ∑ j ∈ Finset.range m.num_columns_, visitHit c m i j g
      ≤ ∑ _i ∈ Finset.range m.num_rows_, 1 :=
        Finset.sum_le_sum (fun i _ => sum_visitHit_columns_le c m hcols i g)
    _ = m.num_rows_ := by simp

theorem nb_efferent_visits (c : Config) (m : DenseMatrixOffsets)
    (hdef : ∀ i, i < m.num_rows_ → ∀ j, j < m.num_columns_ →
      (maskRead c m i j).isSome = true) :
    ∃ r, nb_efferent_synapses c m = some r ∧ KeysSorted r ∧
      ∀ g, mapFind r g = entryAfter c
        (∑ i ∈ Finset.range m.num_rows_, ∑ j ∈ Finset.range m.num_columns_,
          visitHit c m i j g) := by
  unfold nb_efferent_synapses
  cases hr : c.row_major
  · obtain ⟨r, e, hs, h⟩ := nested_tally c (fun acc j i => countCell c m i j acc)
      (fun j i g => visitHit c m i j g)
      (fun j i => if maskRead c m i j = some true then 1 else 0)
      (List.range m.num_columns_) (List.range m.num_rows_)
      (fun j hj i hi r f t h =>
        countCell_visit c m (hdef i (List.mem_range.mp hi) j (List.mem_range.mp hj)) r f t h)
    refine ⟨r, by simpa using e, hs, ?_⟩
    intro g
    rw [h g]
    simp only [list_sum_range]
    rw [Finset.sum_comm]
  · obtain ⟨r, e, hs, h⟩ := nested_tally c (fun acc i j => countCell c m i j acc)
      (fun i j g => visitHit c m i j g)
      (fun i j => if maskRead c m i j = some true then 1 else 0)
      (List.range m.num_rows_) (List.range m.num_columns_)
      (fun i hi j hj r f t h =>
        countCell_visit c m (hdef i (List.mem_range.mp hi) j (List.mem_range.mp hj)) r f t h)
    refine ⟨r, by simpa using e, hs, ?_⟩
    intro g
    rw [h g]
    simp only [list_sum_range]

/-- C17: for every mask on which each read of `nb_efferent_synapses()` is defined (the
flat index is computed without signed overflow and lies inside the vector), and in both
layouts, every value of the returned map is at least `1` and at most `num_rows`,
hence at most the maximum of `IT`: no counter has wrapped (`num_rows` and `num_columns`
are values of `IT`). -/
theorem nb_efferent_synapses_values_bounded (c : Config) (m : DenseMatrixOffsets)
    (hrows : m.num_rows_ ≤ maxIT c) (hcols : m.num_columns_ ≤ maxIT c)
    (hdef : ∀ i, i < m.num_rows_ → ∀ j, j < m.num_columns_ →
      (maskRead c m i j).isSome = true) :
    ∃ r, nb_efferent_synapses c m = some r ∧
      ∀ kv ∈ r, 1 ≤ kv.2 ∧ kv.2 ≤ m.num_rows_ ∧ kv.2 ≤ maxIT c := by
  obtain ⟨r, e, hs, h⟩ := nb_efferent_visits c m hdef
  refine ⟨r, e, ?_⟩
  rintro ⟨g, v⟩ hkv
  have hfind := mapFind_of_mem r hs g v hkv
  rw [h g] at hfind
  have hle := sum_visitHit_le c m hcols g
  have hp := lt_two_pow_of_le_maxIT c hrows
  unfold entryAfter at hfind
  split at hfind
  · exact Option.noConfusion hfind
  · rename_i hne
    rw [wrapIT_of_lt c (by omega)] at hfind
    have hv := Option.some.inj hfind
    show 1 ≤ v ∧ v ≤ m.num_rows_ ∧ v ≤ maxIT c
    omega

theorem nb_efferent_synapses_values_bounded_witness :
    sampleMatrix.num_rows_ ≤ maxIT uint32ColMajor ∧
    sampleMatrix.num_columns_ ≤ maxIT uint32ColMajor ∧
    (∀ i, i < sampleMatrix.num_rows_ → ∀ j, j < sampleMatrix.num_columns_ →
      (maskRead uint32ColMajor sampleMatrix i j).isSome = true) ∧
    ∃ r, nb_efferent_synapses uint32ColMajor sampleMatrix = some r ∧
      ∀ kv ∈ r, 1 ≤ kv.2 ∧ kv.2 ≤ sampleMatrix.num_rows_ ∧ kv.2 ≤ maxIT uint32ColMajor :=
  ⟨by decide, by decide,
    (by
      intro i hi j hj
      have hi2 : i < 2 := hi
      have hj2 : j < 3 := hj
      interval_cases i <;> interval_cases j <;> decide),
    nb_efferent_synapses_values_bounded uint32ColMajor sampleMatrix (by decide) (by decide)
      (by
        intro i hi j hj
        have hi2 : i < 2 := hi
        have hj2 : j < 3 := hj
        interval_cases i <;> interval_cases j <;> decide)⟩

/-! ### Layouts on a shape whose product wraps -/

theorem decodeStep_raw (c : Config) (m : DenseMatrixOffsets) (row col : Nat)
    (indices : List Nat) (b : Bool) (hcol : maskRead c m row col = some b) :
    decodeStep c m row indices col = some (if b = true then indices ++ [col] else indices) := by
  unfold decodeStep
  rw [hcol]

theorem decode_fold_raw (c : Config) (m : DenseMatrixOffsets) (row : Nat) (f : Nat → Bool) :
    ∀ (cols indices : List Nat),
      (∀ col ∈ cols, maskRead c m row col = some (f col)) →
      cols.foldlM (decodeStep c m row) indices = some (indices ++ cols.filter f) := by
  intro cols
  induction cols with
  | nil => intro indices _; simp
  | cons col rest ih =>
    intro indices hcols
    have hcol := hcols col (List.mem_cons_self _ _)
    have hrest : ∀ x ∈ rest, maskRead c m row x = some (f x) :=
      fun x hx => hcols x (List.mem_cons_of_mem _ hx)
    rw [List.foldlM_cons, decodeStep_raw c m row col indices (f col) hcol]
    simp only [Option.bind_eq_bind, Option.some_bind]
    rw [ih _ hrest]
    by_cases hset : f col = true
    · simp [hset, List.filter_cons]
    · simp [hset, List.filter_cons]

theorem decode_eq_filter_raw (c : Config) (m : DenseMatrixOffsets) (row : Nat) (f : Nat → Bool)
    (hdef : ∀ col, col < m.num_columns_ → maskRead c m row col = some (f col)) :
    decode_column_indices c m row = some ((List.range m.num_columns_).filter f) := by
  unfold decode_column_indices
  rw [decode_fold_raw c m row f _ [] (fun col hcol => hdef col (List.mem_range.mp hcol))]
  simp

theorem single_cell_read (L k : Nat) (hk : k < L) :
    ((List.replicate L false).set 0 true)[k]? = some (decide (k = 0)) := by
  rw [List.getElem?_set, List.getElem?_replicate, List.length_replicate]
  by_cases hk0 : k = 0
  · subst hk0
    simp [hk]
  · have h0 : ¬ (0 = k) := fun e => hk0 e.symm
    simp [h0, hk0, hk]

theorem mulIT_comm (c : Config) (a b : Nat) : mulIT c a b = mulIT c b a := by
  unfold mulIT
  rw [Nat.mul_comm]

theorem flatIndex_origin (c : Config) (m : DenseMatrixOffsets) : flatIndex c m 0 0 = some 0 := by
  unfold flatIndex mulAddIT wrapIT intBits
  split <;> split <;> simp

theorem init_single_cell (c : Config) (m : DenseMatrixOffsets) (L : Nat)
    (hL : mulIT c m.num_rows_ m.num_columns_ = some L) (hpos : 0 < L) (h1 : 1 ≤ maxIT c)
    (hr : m.low_row_rank_ = 0) (hc : m.low_column_rank_ = 0) :
    init_matrix_from_lil c enoughMemory m [0] [[0]] =
      Outcome.returned true { m with mask_ := (List.replicate L false).set 0 true } := by
  have hsub : subIT c 0 0 = 0 := by
    unfold subIT
    simp
  have hflat := flatIndex_origin c m
  have hstep : ingestRow c m [[0]] (List.replicate L false) 0 =
      some ((List.replicate L false).set 0 true) := by
    unfold ingestRow
    simp only [hr, hsub, List.getElem?_cons_zero, List.foldlM_cons, List.foldlM_nil]
    unfold setCell
    simp only [hc, hsub, hflat, List.length_replicate, hpos, if_true]
    rfl
  have hfold : [0].foldlM (ingestRow c m [[0]]) (List.replicate L false) =
      some ((List.replicate L false).set 0 true) := by
    rw [List.foldlM_cons, hstep]
    rfl
  have hreq : memoryRequest c m = some (wrapSize (L * c.mtSize)) := by
    unfold memoryRequest
    rw [mulIT_comm, hL]
  exact init_of_ingest c enoughMemory m [0] [[0]] _ L _ rfl h1 hreq rfl hL hfold

/-- C14: with `IT` and `ST` both 32 bits wide the windows `[0, 2147483649)` x `[0, 3)` are
accepted in both layouts and both objects ingest `post_ranks = [0]`, `pre_ranks = [[0]]`
successfully (into the same mask), yet row `2147483647` decodes to `[]` in the row-major
layout and to `[1]` in the column-major one, every read being inside the mask. -/
theorem layouts_disagree_wrapped :
    construct uint32RowMajor 0 2147483649 0 3 = Construction.built (freshMatrix 2147483649 3) ∧
    construct uint32ColMajor 0 2147483649 0 3 = Construction.built (freshMatrix 2147483649 3) ∧
    init_matrix_from_lil uint32RowMajor enoughMemory (freshMatrix 2147483649 3) [0] [[0]] =
      Outcome.returned true probeMatrix ∧
    init_matrix_from_lil uint32ColMajor enoughMemory (freshMatrix 2147483649 3) [0] [[0]] =
      Outcome.returned true probeMatrix ∧
    2147483647 < probeMatrix.num_rows_ ∧
    decode_column_indices uint32RowMajor probeMatrix 2147483647 = some [] ∧
    decode_column_indices uint32ColMajor probeMatrix 2147483647 = some [1] := by
  have hread : ∀ k, k < 2147483651 → probeMatrix.mask_[k]? = some (decide (k = 0)) :=
    fun k hk => single_cell_read 2147483651 k hk
  have hcols : probeMatrix.num_columns_ = 3 := rfl
  refine ⟨by decide, by decide, ?_, ?_, by decide, ?_, ?_⟩
  · exact init_single_cell uint32RowMajor (freshMatrix 2147483649 3) 2147483651
      (by decide) (by decide) (by decide) rfl rfl
  · exact init_single_cell uint32ColMajor (freshMatrix 2147483649 3) 2147483651
      (by decide) (by decide) (by decide) rfl rfl
  · rw [decode_eq_filter_raw uint32RowMajor probeMatrix 2147483647 (fun _ => false)
      (by
        intro col hcol
        rw [hcols] at hcol
        interval_cases col
        · rw [maskRead_of_flatIndex uint32RowMajor probeMatrix
            (show flatIndex uint32RowMajor probeMatrix 2147483647 0 = some 2147483645 by decide)]
          exact hread _ (by decide)
        · rw [maskRead_of_flatIndex uint32RowMajor probeMatrix
            (show flatIndex uint32RowMajor probeMatrix 2147483647 1 = some 2147483646 by decide)]
          exact hread _ (by decide)
        · rw [maskRead_of_flatIndex uint32RowMajor probeMatrix
            (show flatIndex uint32RowMajor probeMatrix 2147483647 2 = some 2147483647 by decide)]
          exact hread _ (by decide))]
    rw [hcols]
    decide
  · rw [decode_eq_filter_raw uint32ColMajor probeMatrix 2147483647 (fun col => decide (col = 1))
      (by
        intro col hcol
        rw [hcols] at hcol
        interval_cases col
        · rw [maskRead_of_flatIndex uint32ColMajor probeMatrix
            (show flatIndex uint32ColMajor probeMatrix 2147483647 0 = some 2147483647 by decide)]
          exact hread _ (by decide)
        · rw [maskRead_of_flatIndex uint32ColMajor probeMatrix
            (show flatIndex uint32ColMajor probeMatrix 2147483647 1 = some 0 by decide)]
          exact hread _ (by decide)
        · rw [maskRead_of_flatIndex uint32ColMajor probeMatrix
            (show flatIndex uint32ColMajor probeMatrix 2147483647 2 = some 2147483649 by decide)]
          exact hread _ (by decide))]
    rw [hcols]
    decide

/-! ### Layout independence when the product fits the index types -/

theorem keysSorted_ext :
    ∀ (r1 r2 : List (Nat × Nat)), KeysSorted r1 → KeysSorted r2 →
      (∀ g, mapFind r1 g = mapFind r2 g) → r1 = r2 := by
  intro r1
  induction r1 with
  | nil =>
    intro r2 _ _ h
    cases r2 with
    | nil => rfl
    | cons b t2 =>
      obtain ⟨k2, v2⟩ := b
      have := h k2
      simp [mapFind] at this
  | cons a t1 ih =>
    obtain ⟨k1, v1⟩ := a
    intro r2 hs1 hs2 h
    cases r2 with
    | nil =>
      have := h k1
      simp [mapFind] at this
    | cons b t2 =>
      obtain ⟨k2, v2⟩ := b
      unfold KeysSorted at hs1 hs2 ih
      obtain ⟨hh1, ht1⟩ := List.pairwise_cons.mp hs1
      obtain ⟨hh2, ht2⟩ := List.pairwise_cons.mp hs2
      have hn1 : mapFind t1 k1 = none :=
        mapFind_none_of_ne t1 k1 (fun x hx => by have := hh1 x hx; simp only at this; omega)
      have hn2 : mapFind t2 k2 = none :=
        mapFind_none_of_ne t2 k2 (fun x hx => by have := hh2 x hx; simp only at this; omega)
      have hk : k1 = k2 := by
        rcases Nat.lt_trichotomy k1 k2 with hlt | heq | hgt
        · have e := h k1
          have hne : k1 ≠ k2 := by omega
          have hn : mapFind t2 k1 = none :=
            mapFind_none_of_ne t2 k1
              (fun x hx => by have := hh2 x hx; simp only at this; omega)
          simp [mapFind, hne, hn] at e
        · exact heq
        · have e := h k2
          have hne : k2 ≠ k1 := by omega
          have hn : mapFind t1 k2 = none :=
            mapFind_none_of_ne t1 k2
              (fun x hx => by have := hh1 x hx; simp only at this; omega)
          simp [mapFind, hne, hn] at e
      subst hk
      have hv : v1 = v2 := by
        have e := h k1
        simpa [mapFind] using e
      subst hv
      have htail : ∀ g, mapFind t1 g = mapFind t2 g := by
        intro g
        by_cases hg : g = k1
        · rw [hg, hn1, hn2]
        · have e := h g
          simpa [mapFind, hg] using e
      rw [ih t2 ht1 ht2 htail]

theorem written_addr_iff (c : Config) (m : DenseMatrixOffsets)
    (post_ranks : List Nat) (pre_ranks : List (List Nat))
    (hrwin : RowWindowInv c m) (hcwin : ColumnWindowInv c m)
    (hpost : ∀ p ∈ post_ranks, m.low_row_rank_ ≤ p ∧ p < m.high_row_rank_)
    (hpre : ∀ qs ∈ pre_ranks, ∀ q ∈ qs, m.low_column_rank_ ≤ q ∧ q < m.high_column_rank_)
    {i j : Nat} (hi : i < m.num_rows_) (hj : j < m.num_columns_) :
    Written c m pre_ranks post_ranks (addr c m i j) ↔ Declared m pre_ranks post_ranks i j := by
  have hr := hrwin.1
  have hc := hcwin.1
  unfold Written Declared
  constructor
  · rintro ⟨p, hp, qs, hqs, q, hq, h⟩
    have hpw := hpost p hp
    have hqw := hpre qs (mem_of_getElem_some hqs) q hq
    obtain ⟨e1, e2⟩ := addr_inj c m hi hj (by omega) (by omega) h
    exact ⟨p, hp, qs, hqs, q, hq, e1, e2⟩
  · rintro ⟨p, hp, qs, hqs, q, hq, e1, e2⟩
    exact ⟨p, hp, qs, hqs, q, hq, by rw [e1, e2]⟩

theorem cellSet_after_init (c : Config) (chk : Nat → Bool) (m m2 : DenseMatrixOffsets)
    (post_ranks : List Nat) (pre_ranks : List (List Nat))
    (hshape : FitsIndexTypes c m) (hrwin : RowWindowInv c m) (hcwin : ColumnWindowInv c m)
    (hinit : init_matrix_from_lil c chk m post_ranks pre_ranks = Outcome.returned true m2)
    (hpost : ∀ p ∈ post_ranks, m.low_row_rank_ ≤ p ∧ p < m.high_row_rank_)
    (hpre : ∀ qs ∈ pre_ranks, ∀ q ∈ qs, m.low_column_rank_ ≤ q ∧ q < m.high_column_rank_) :
    FitsIndexTypes c m2 ∧ ColumnWindowInv c m2 ∧ MaskInv m2 ∧
      m2.num_rows_ = m.num_rows_ ∧ m2.num_columns_ = m.num_columns_ ∧
      m2.low_column_rank_ = m.low_column_rank_ ∧
      ∀ i j, i < m.num_rows_ → j < m.num_columns_ →
        (cellSet c m2 i j = true ↔ Declared m pre_ranks post_ranks i j) := by
  obtain ⟨mask2, e, hlen2, h2⟩ :=
    written_of_init_true c chk m m2 post_ranks pre_ranks hshape hrwin hcwin hinit hpost hpre
  subst e
  refine ⟨hshape, hcwin, hlen2, rfl, rfl, rfl, ?_⟩
  intro i j hi hj
  rw [cellSet_iff, addr_with_mask]
  show mask2[addr c m i j]? = some true ↔ _
  rw [h2]
  exact written_addr_iff c m post_ranks pre_ranks hrwin hcwin hpost hpre hi hj

theorem layout_independent_of_fits (c : Config) (chk : Nat → Bool)
    (m mr mc : DenseMatrixOffsets) (post_ranks : List Nat) (pre_ranks : List (List Nat))
    (hshape : FitsIndexTypes c m) (hrwin : RowWindowInv c m) (hcwin : ColumnWindowInv c m)
    (hrow : init_matrix_from_lil (withLayout c true) chk m post_ranks pre_ranks =
      Outcome.returned true mr)
    (hcol : init_matrix_from_lil (withLayout c false) chk m post_ranks pre_ranks =
      Outcome.returned true mc)
    (hpost : ∀ p ∈ post_ranks, m.low_row_rank_ ≤ p ∧ p < m.high_row_rank_)
    (hpre : ∀ qs ∈ pre_ranks, ∀ q ∈ qs, m.low_column_rank_ ≤ q ∧ q < m.high_column_rank_) :
    (∀ r, r < m.num_rows_ →
      decode_column_indices (withLayout c true) mr r =
        decode_column_indices (withLayout c false) mc r) ∧
    nb_efferent_synapses (withLayout c true) mr =
      nb_efferent_synapses (withLayout c false) mc := by
  obtain ⟨hf1, hw1, hm1, hr1, hc1, hl1, hcell1⟩ :=
    cellSet_after_init (withLayout c true) chk m mr post_ranks pre_ranks hshape hrwin hcwin
      hrow hpost hpre
  obtain ⟨hf2, hw2, hm2, hr2, hc2, hl2, hcell2⟩ :=
    cellSet_after_init (withLayout c false) chk m mc post_ranks pre_ranks hshape hrwin hcwin
      hcol hpost hpre
  have hcell : ∀ i j, i < m.num_rows_ → j < m.num_columns_ →
      cellSet (withLayout c true) mr i j = cellSet (withLayout c false) mc i j := by
    intro i j hi hj
    apply Bool.eq_iff_iff.mpr
    rw [hcell1 i j hi hj, hcell2 i j hi hj]
  constructor
  · intro r hr
    rw [decode_eq_filter (withLayout c true) mr hf1 hm1 (by omega),
      decode_eq_filter (withLayout c false) mc hf2 hm2 (by omega), hc1, hc2]
    congr 1
    apply List.filter_congr
    intro col hcol2
    exact hcell r col hr (List.mem_range.mp hcol2)
  · obtain ⟨r1, e1, hs1, hfind1, _⟩ := nb_efferent_tally (withLayout c true) mr hf1 hw1 hm1
    obtain ⟨r2, e2, hs2, hfind2, _⟩ := nb_efferent_tally (withLayout c false) mc hf2 hw2 hm2
    have hdeg : ∀ g, degreeAt (withLayout c true) mr g = degreeAt (withLayout c false) mc g := by
      intro g
      unfold degreeAt
      rw [hl1, hl2, hc1, hc2]
      by_cases hv : m.low_column_rank_ ≤ g ∧ g - m.low_column_rank_ < m.num_columns_
      · rw [if_pos hv, if_pos hv]
        unfold columnDegree
        rw [hr1, hr2]
        apply List.countP_congr
        intro i hi
        rw [hcell i _ (List.mem_range.mp hi) hv.2]
      · rw [if_neg hv, if_neg hv]
    rw [e1, e2]
    congr 1
    apply keysSorted_ext r1 r2 hs1 hs2
    intro g
    rw [hfind1 g, hfind2 g, hdeg g]

/-! ### Flat addressing when the product fits the index types -/

theorem flatIndex_safe_of_fits (c : Config) (m : DenseMatrixOffsets)
    (hshape : FitsIndexTypes c m) (hmask : MaskInv m)
    {i j i2 j2 : Nat} (hi : i < m.num_rows_) (hj : j < m.num_columns_)
    (hi2 : i2 < m.num_rows_) (hj2 : j2 < m.num_columns_) :
    (∃ idx, flatIndex c m i j = some idx ∧ idx < m.mask_.length) ∧
      (flatIndex c m i j = flatIndex c m i2 j2 → i = i2 ∧ j = j2) := by
  rw [flatIndex_eq_addr c m hshape.1 hi hj, flatIndex_eq_addr c m hshape.1 hi2 hj2, hmask]
  exact ⟨⟨_, rfl, addr_lt c m hi hj⟩,
    fun h => addr_inj c m hi hj hi2 hj2 (Option.some.inj h)⟩

/-! ### The ingestion loop on unchecked ranks -/

/-- C5: with `IT` and `ST` both 32 bits wide the windows `[0, 2147483649)` x `[0, 2)` are
accepted and the ingestion of `post_ranks = [0]`, `pre_ranks = [[1]]` succeeds, leaving
the mask `[false, true]`.  For the row `2147483648 < num_rows` no `mask[addr(row, c)]`
is set, `c < num_columns`, yet `decode_column_indices(2147483648)` returns `[1]`: the flat
index `2147483648 * 2 + 1` is formed in `IT` and wraps onto the cell `(0, 1)`. -/
theorem decode_wrapped_row_not_its_cells :
    construct uint32RowMajor 0 2147483649 0 2 = Construction.built (freshMatrix 2147483649 2) ∧
    init_matrix_from_lil uint32RowMajor enoughMemory (freshMatrix 2147483649 2) [0] [[1]] =
      Outcome.returned true { freshMatrix 2147483649 2 with mask_ := [false, true] } ∧
    2147483648 < (freshMatrix 2147483649 2).num_rows_ ∧
    (∀ col, col < (freshMatrix 2147483649 2).num_columns_ →
      cellSet uint32RowMajor { freshMatrix 2147483649 2 with mask_ := [false, true] }
        2147483648 col = false) ∧
    decode_column_indices uint32RowMajor
      { freshMatrix 2147483649 2 with mask_ := [false, true] } 2147483648 = some [1] := by
  decide

theorem nb_efferent_undefined_of_second_row (c : Config) (m : DenseMatrixOffsets) (n : Nat)
    (r1 : List (Nat × Nat)) (hrm : c.row_major = true) (hrows : m.num_rows_ = n + 2)
    (h0 : (List.range m.num_columns_).foldlM (fun acc2 j => countCell c m 0 j acc2) [] =
      some r1)
    (h1 : (List.range m.num_columns_).foldlM (fun acc2 j => countCell c m 1 j acc2) r1 =
      none) :
    nb_efferent_synapses c m = none := by
  unfold nb_efferent_synapses
  rw [if_pos hrm, hrows]
  simp only [List.range_succ_eq_map, List.map_cons, List.foldlM_cons, h0,
    Option.bind_eq_bind, Option.some_bind, Nat.succ_eq_add_one, Nat.zero_add, h1,
    Option.none_bind]

/-- C3: with `IT` and `ST` both 32 bits wide the windows `[0, 2147483649)` x `[0, 2)` are
accepted and the ingestion of `post_ranks = [0]`, `pre_ranks = [[0]]` succeeds, leaving a
mask of 2 entries.  On that object `nb_efferent_synapses()` returns no map: for the cell
`(1, 0)`, with `1 < num_rows` and `0 < num_columns`, the flat index is `2` and the read
`mask_[2]` is outside the mask. -/
theorem count_reads_outside_wrapped_mask :
    construct uint32RowMajor 0 2147483649 0 2 = Construction.built (freshMatrix 2147483649 2) ∧
    init_matrix_from_lil uint32RowMajor enoughMemory (freshMatrix 2147483649 2) [0] [[0]] =
      Outcome.returned true { freshMatrix 2147483649 2 with mask_ := [true, false] } ∧
    (1 < (freshMatrix 2147483649 2).num_rows_ ∧ 0 < (freshMatrix 2147483649 2).num_columns_) ∧
    flatIndex uint32RowMajor { freshMatrix 2147483649 2 with mask_ := [true, false] } 1 0 =
      some 2 ∧
    maskRead uint32RowMajor { freshMatrix 2147483649 2 with mask_ := [true, false] } 1 0 =
      none ∧
    nb_efferent_synapses uint32RowMajor
      { freshMatrix 2147483649 2 with mask_ := [true, false] } = none :=
  ⟨by decide, by decide, by decide, by decide, by decide,
    nb_efferent_undefined_of_second_row uint32RowMajor
      { freshMatrix 2147483649 2 with mask_ := [true, false] } 2147483647 [(0, 1)] rfl
      (by decide) (by decide) (by decide)⟩

end ANNarchy
